import Mathlib

/-!
# A verification development for `reem/rust-dbqueue`

A shallow embedding, in Lean 4, of the in-memory message broker implemented
in `src/common/src/lib.rs`, `src/server/src/queue/{rcqueue,concurrent}.rs`,
`src/server/src/connection.rs`, `src/server/src/rt.rs` and
`src/client/src/pipeline.rs`, together with proofs about the wire codec,
the queue backends, the per-connection request/response loop, the
unconfirmed-delivery state machine, and the pipelined client.

Conventions of the embedding:
* byte strings (`Vec<u8>`, `&[u8]`, `String` payloads of the wire protocol)
  are `List Nat`;
* `Uuid` values are `Nat` (the server draws fresh identifiers from a
  counter, standing in for `Uuid::new_v4()`, which is fresh with
  overwhelming probability);
* machine integers are `Nat` with explicit bounds where overflow matters;
* fallible operations return `Option` or `Except`.
-/

namespace DbQueue

/-- A byte string (Rust `Vec<u8>` / `&[u8]` / the UTF-8 bytes of a `String`). -/
abbrev Bytes := List Nat

/-! ## Wire codec

Modelled from the spec: the serialization itself is performed by the external
`bincode` crate (`src/common/src/lib.rs` only declares the message enums and
delegates to `bincode::encode`/`bincode::decode`), so the byte-level format
is taken from the spec, SS4.1/SS6: each top-level value is a tagged variant
followed by its fields in declaration order; strings and byte slices are
length-prefixed; integers are fixed-width little-endian; identifiers are
16 raw bytes.  We fix a 4-byte little-endian variant tag, an 8-byte
little-endian length prefix, 8-byte little-endian `u64` fields and 16-byte
little-endian identifiers. -/

/-- Little-endian fixed-width encoding of `n` into `w` bytes. -/
def natToLE : Nat → Nat → Bytes
  | 0, _ => []
  | w + 1, n => n % 256 :: natToLE w (n / 256)

/-- Read a little-endian byte string back as a number. -/
def leToNat : Bytes → Nat
  | [] => 0
  | b :: bs => b + 256 * leToNat bs

/-- Take exactly `k` bytes off the front of a buffer; `none` when the buffer
is too short (the "incomplete" indication of the codec). -/
def readBytes (k : Nat) (buf : Bytes) : Option (Bytes × Bytes) :=
  if k ≤ buf.length then some (buf.take k, buf.drop k) else none

/-- Decode a `w`-byte little-endian unsigned integer. -/
def decodeUInt (w : Nat) (buf : Bytes) : Option (Nat × Bytes) :=
  (readBytes w buf).map fun p => (leToNat p.1, p.2)

/-- Encode a length-prefixed byte string (a `String` or `&[u8]` field). -/
def encodeLPBytes (b : Bytes) : Bytes :=
  natToLE 8 b.length ++ b

/-- Decode a length-prefixed byte string. -/
def decodeLPBytes (buf : Bytes) : Option (Bytes × Bytes) := do
  let (len, r1) ← decodeUInt 8 buf
  readBytes len r1

/-- `ClientMessage` (`src/common/src/lib.rs` lines 18-46): the request
variants of the wire protocol, in declaration order. -/
inductive ClientMessage
  | createQueue (name : Bytes)
  | deleteQueue (name : Bytes)
  | enqueue (name : Bytes) (object : Bytes)
  | read (name : Bytes) (timeout : Nat)
  | confirm (uuid : Nat)
deriving DecidableEq

/-- `ServerMessage` (`src/common/src/lib.rs` lines 48-79): the response
variants of the wire protocol, in declaration order. -/
inductive ServerMessage
  | queueCreated
  | queueDeleted
  | objectQueued (uuid : Nat)
  | read (uuid : Nat) (object : Bytes)
  | confirmed
  | requeued
  | full (uuid : Nat) (object : Bytes)
  | empty
  | noSuchEntity
deriving DecidableEq

/-- `ClientMessage::encode_to` (`src/common/src/lib.rs` lines 84-86):
variant tag, then the fields in declaration order. -/
def encodeClient : ClientMessage → Bytes
  | .createQueue name => natToLE 4 0 ++ encodeLPBytes name
  | .deleteQueue name => natToLE 4 1 ++ encodeLPBytes name
  | .enqueue name object => natToLE 4 2 ++ encodeLPBytes name ++ encodeLPBytes object
  | .read name timeout => natToLE 4 3 ++ encodeLPBytes name ++ natToLE 8 timeout
  | .confirm uuid => natToLE 4 4 ++ natToLE 16 uuid

/-- `ClientMessage::decode` (`src/common/src/lib.rs` lines 90-92): returns
the decoded message together with the number of bytes consumed. -/
def decodeClient (buf : Bytes) : Option (ClientMessage × Nat) := do
  let (tag, r1) ← decodeUInt 4 buf
  match tag with
  | 0 => do
    let (name, r2) ← decodeLPBytes r1
    pure (.createQueue name, buf.length - r2.length)
  | 1 => do
    let (name, r2) ← decodeLPBytes r1
    pure (.deleteQueue name, buf.length - r2.length)
  | 2 => do
    let (name, r2) ← decodeLPBytes r1
    let (object, r3) ← decodeLPBytes r2
    pure (.enqueue name object, buf.length - r3.length)
  | 3 => do
    let (name, r2) ← decodeLPBytes r1
    let (t, r3) ← decodeUInt 8 r2
    pure (.read name t, buf.length - r3.length)
  | 4 => do
    let (u, r2) ← decodeUInt 16 r1
    pure (.confirm u, buf.length - r2.length)
  | _ => none

/-- `ServerMessage::encode` (`src/common/src/lib.rs` lines 98-100). -/
def encodeServer : ServerMessage → Bytes
  | .queueCreated => natToLE 4 0
  | .queueDeleted => natToLE 4 1
  | .objectQueued uuid => natToLE 4 2 ++ natToLE 16 uuid
  | .read uuid object => natToLE 4 3 ++ natToLE 16 uuid ++ encodeLPBytes object
  | .confirmed => natToLE 4 4
  | .requeued => natToLE 4 5
  | .full uuid object => natToLE 4 6 ++ natToLE 16 uuid ++ encodeLPBytes object
  | .empty => natToLE 4 7
  | .noSuchEntity => natToLE 4 8

/-- `ServerMessage::decode` (`src/common/src/lib.rs` lines 110-112). -/
def decodeServer (buf : Bytes) : Option (ServerMessage × Nat) := do
  let (tag, r1) ← decodeUInt 4 buf
  match tag with
  | 0 => pure (.queueCreated, buf.length - r1.length)
  | 1 => pure (.queueDeleted, buf.length - r1.length)
  | 2 => do
    let (u, r2) ← decodeUInt 16 r1
    pure (.objectQueued u, buf.length - r2.length)
  | 3 => do
    let (u, r2) ← decodeUInt 16 r1
    let (object, r3) ← decodeLPBytes r2
    pure (.read u object, buf.length - r3.length)
  | 4 => pure (.confirmed, buf.length - r1.length)
  | 5 => pure (.requeued, buf.length - r1.length)
  | 6 => do
    let (u, r2) ← decodeUInt 16 r1
    let (object, r3) ← decodeLPBytes r2
    pure (.full u object, buf.length - r3.length)
  | 7 => pure (.empty, buf.length - r1.length)
  | 8 => pure (.noSuchEntity, buf.length - r1.length)
  | _ => none

/-- Numeric well-formedness of a request: every fixed-width field fits its
wire width (`u64` lengths and timeouts, 128-bit identifiers). -/
def WFClient : ClientMessage → Prop
  | .createQueue name => name.length < 2 ^ 64
  | .deleteQueue name => name.length < 2 ^ 64
  | .enqueue name object => name.length < 2 ^ 64 ∧ object.length < 2 ^ 64
  | .read name timeout => name.length < 2 ^ 64 ∧ timeout < 2 ^ 64
  | .confirm uuid => uuid < 2 ^ 128

/-- Numeric well-formedness of a response. -/
def WFServer : ServerMessage → Prop
  | .objectQueued uuid => uuid < 2 ^ 128
  | .read uuid object => uuid < 2 ^ 128 ∧ object.length < 2 ^ 64
  | .full uuid object => uuid < 2 ^ 128 ∧ object.length < 2 ^ 64
  | _ => True

/-- `RcQueue` (`src/server/src/queue/rcqueue.rs` line 10): the single-thread
backend, an unbounded `VecDeque<(Uuid, Vec<u8>)>` behind `Rc<RefCell<_>>`.
The list head is the queue front. -/
abbrev RcQueue := List (Nat × Bytes)

/-- `RcQueue::enqueue` (rcqueue.rs lines 38-40): `push_back`, always `Ok`. -/
def RcQueue.enqueue (q : RcQueue) (id : Nat) (data : Bytes) :
    Except (Nat × Bytes) RcQueue :=
  .ok (q ++ [(id, data)])

/-- `RcQueue::requeue` (rcqueue.rs lines 42-44): `push_front`, always `Ok`. -/
def RcQueue.requeue (q : RcQueue) (id : Nat) (data : Bytes) :
    Except (Nat × Bytes) RcQueue :=
  .ok ((id, data) :: q)

/-- `RcQueue::dequeue` (rcqueue.rs lines 46-48): `pop_front`. -/
def RcQueue.dequeue (q : RcQueue) : Option ((Nat × Bytes) × RcQueue) :=
  match q with
  | [] => none
  | x :: xs => some (x, xs)

/-- `ConcurrentQueue` (`src/server/src/queue/concurrent.rs` line 45): the
concurrent backend, a bounded MPMC channel of the given capacity.  The list
head is the receive end. -/
structure ConcurrentQueue where
  capacity : Nat
  channel : List (Nat × Bytes)
deriving DecidableEq

/-- `ConcurrentQueue::enqueue` (concurrent.rs lines 55-57): `send_async`,
which appends at the tail and returns the rejected `(id, data)` when the
channel already holds `capacity` items. -/
def ConcurrentQueue.enqueue (q : ConcurrentQueue) (id : Nat) (data : Bytes) :
    Except (Nat × Bytes) ConcurrentQueue :=
  if q.channel.length < q.capacity then
    .ok ⟨q.capacity, q.channel ++ [(id, data)]⟩
  else
    .error (id, data)

/-- `ConcurrentQueue::requeue` (concurrent.rs lines 59-61): literally
`self.enqueue(id, data)`. -/
def ConcurrentQueue.requeue (q : ConcurrentQueue) (id : Nat) (data : Bytes) :
    Except (Nat × Bytes) ConcurrentQueue :=
  q.enqueue id data

/-- `ConcurrentQueue::dequeue` (concurrent.rs lines 63-65): `recv_async`. -/
def ConcurrentQueue.dequeue (q : ConcurrentQueue) :
    Option ((Nat × Bytes) × ConcurrentQueue) :=
  match q.channel with
  | [] => none
  | x :: xs => some (x, ⟨q.capacity, xs⟩)

/-- A queue as seen by the broker model, covering both backends in one type:
`cap = none` is the unbounded single-thread `RcQueue`, `cap = some c` is the
bounded `ConcurrentQueue` of capacity `c`.  The operations below agree with
the two source implementations case by case (see the agreement lemmas). -/
structure GQueue where
  cap : Option Nat
  items : List (Nat × Bytes)
deriving DecidableEq

/-- `Queue::enqueue`: tail append; capacity rejection returns `(id, data)`
(rcqueue.rs lines 38-40, concurrent.rs lines 55-57). -/
def GQueue.enqueue (q : GQueue) (id : Nat) (data : Bytes) :
    Except (Nat × Bytes) GQueue :=
  match q.cap with
  | none => .ok { q with items := q.items ++ [(id, data)] }
  | some c =>
    if q.items.length < c then .ok { q with items := q.items ++ [(id, data)] }
    else .error (id, data)

/-- `Queue::requeue`: front insert on the single-thread backend, plain
enqueue on the concurrent backend (rcqueue.rs lines 42-44, concurrent.rs
lines 59-61). -/
def GQueue.requeue (q : GQueue) (id : Nat) (data : Bytes) :
    Except (Nat × Bytes) GQueue :=
  match q.cap with
  | none => .ok { q with items := (id, data) :: q.items }
  | some _ => q.enqueue id data

/-- `Queue::dequeue`: remove the head (rcqueue.rs lines 46-48, concurrent.rs
lines 63-65). -/
def GQueue.dequeue (q : GQueue) : Option ((Nat × Bytes) × GQueue) :=
  match q.items with
  | [] => none
  | x :: xs => some (x, { q with items := xs })

/-- `HashMap::get`. -/
def alookup {κ α : Type} [DecidableEq κ] (k : κ) : List (κ × α) → Option α
  | [] => none
  | (k', v) :: rest => if k' = k then some v else alookup k rest

/-- `HashMap::remove` (drops the binding of `k`, if any). -/
def aremove {κ α : Type} [DecidableEq κ] (k : κ) : List (κ × α) → List (κ × α)
  | [] => []
  | (k', v) :: rest => if k' = k then rest else (k', v) :: aremove k rest

/-- `HashMap::insert` (overwrites any existing binding of `k`). -/
def aupsert {κ α : Type} [DecidableEq κ] (k : κ) (v : α) (m : List (κ × α)) :
    List (κ × α) :=
  (k, v) :: aremove k m

/-- Replace the value bound to `k` in place, leaving the keys untouched
(models an in-place state change of the value already stored under `k`). -/
def aset {κ α : Type} [DecidableEq κ] (k : κ) (v : α) : List (κ × α) → List (κ × α)
  | [] => []
  | (k', v') :: rest => if k' = k then (k', v) :: rest else (k', v') :: aset k v rest

/-! ## The broker state machine

A message-level model of the server: the shared queue collection
(`Queues`, rcqueue.rs lines 21-35 / concurrent.rs lines 27-42), the
per-connection unconfirmed-delivery maps (`Connection`, connection.rs), and
the reactor timers (rt.rs `timeout_ms` / `timeout`).  Queues are stored by
handle index in `store`; `names` maps a queue name to its handle.  Deleting
a name leaves the storage slot in place, which models the reference-counted
queue handles that keep a deleted queue alive for their holders. -/

/-- The observable state of one entry of `Connection::unconfirmed`
(connection.rs lines 28-46): the pair of the `confirm` completer and the
`cancellation` future, as seen by the `Confirm` handler.

* `inFlight qh object`: the cancellation future is unresolved; the select
  coordinator of `read_ms` (connection.rs lines 157-171), which captured the
  queue handle `qh`, the id and a copy of `object`, is still waiting.
* `requeuedOK`: the timeout fired first and `queue.requeue` succeeded; the
  coordinator dropped the cancellation completer, so the cancellation future
  is observed as aborted.  (The "completed" resolution of the cancellation
  future only happens on the confirm-first branch, after the entry has
  already been removed from the map, so no stored entry is ever observed in
  that state.)
* `requeueFailed qh object`: the timeout fired first and `queue.requeue`
  failed; the cancellation future was failed with `(queue, id, data)`. -/
inductive Entry
  | inFlight (qh : Nat) (object : Bytes)
  | requeuedOK
  | requeueFailed (qh : Nat) (object : Bytes)
deriving DecidableEq

/-- `true` for the entry states in which the connection still holds the
message payload and the message is not in any queue. -/
def Entry.live : Entry → Bool
  | .inFlight _ _ => true
  | .requeuedOK => false
  | .requeueFailed _ _ => true

/-- Per-connection state (`Connection`, connection.rs lines 16-46): the
incoming byte buffer, the outgoing response-byte queue, and the
unconfirmed map. -/
structure Conn where
  incoming : Bytes
  outgoing : List Bytes
  unconfirmed : List (Nat × Entry)
deriving DecidableEq

/-- `Connection::new` (connection.rs lines 51-58). -/
def Conn.new : Conn := ⟨[], [], []⟩

/-- The broker state: queue storage and name map, the connections, the
armed reactor timers `(connection, uuid, timeout_ms)`, and the fresh-id
counter standing in for `Uuid::new_v4()`. -/
structure Broker where
  qcap : Option Nat
  store : List GQueue
  names : List (Bytes × Nat)
  conns : List Conn
  timers : List (Nat × Nat × Nat)
  nextId : Nat
deriving DecidableEq

/-- The empty broker over the given backend (`qcap = none`: `RcQueues`,
the default; `qcap = some c`: `ConcurrentQueues::new(c)`). -/
def Broker.init (qcap : Option Nat) : Broker := ⟨qcap, [], [], [], [], 0⟩

/-- Queue handle dereference.  An out-of-range handle yields an empty
fresh queue; reachable states only store in-range handles. -/
def Broker.getQueue (s : Broker) (qh : Nat) : GQueue :=
  (s.store.get? qh).getD ⟨s.qcap, []⟩

def Broker.setQueue (s : Broker) (qh : Nat) (q : GQueue) : Broker :=
  { s with store := s.store.set qh q }

def Broker.updateConn (s : Broker) (ci : Nat) (f : Conn → Conn) : Broker :=
  match s.conns.get? ci with
  | none => s
  | some c => { s with conns := s.conns.set ci (f c) }

/-- `Queues::insert` (rcqueue.rs lines 24-26, concurrent.rs lines 30-33):
`entry(name).or_insert_with(default)` — an existing queue is left
untouched, otherwise a fresh empty queue is allocated. -/
def Broker.insertQueue (s : Broker) (name : Bytes) : Broker :=
  match alookup name s.names with
  | some _ => s
  | none =>
    { s with
      store := s.store ++ [⟨s.qcap, []⟩]
      names := (name, s.store.length) :: s.names }

/-- `Queues::remove` (rcqueue.rs lines 28-30, concurrent.rs lines 35-37):
drops the name binding and returns whether a queue was removed.  The
storage slot stays alive for existing handles. -/
def Broker.removeQueue (s : Broker) (name : Bytes) : Option Nat × Broker :=
  match alookup name s.names with
  | some qh => (some qh, { s with names := aremove name s.names })
  | none => (none, s)

/-- `Connection::read_ms` (connection.rs lines 144-183): resolve the queue,
dequeue; on a message, arm a reactor timer for `(ci, uuid)` with the raw
`timeout` value (line 154 arms unconditionally, also for `timeout = 0`),
record the in-flight entry in the unconfirmed map (`HashMap::insert`,
line 173), and answer `Read(uuid, object)`. -/
def Broker.read_ms (s : Broker) (ci : Nat) (name : Bytes) (timeout : Nat) :
    ServerMessage × Broker :=
  match alookup name s.names with
  | none => (.noSuchEntity, s)
  | some qh =>
    match (s.getQueue qh).dequeue with
    | none => (.empty, s)
    | some ((uuid, object), q') =>
      (.read uuid object,
        ({ s.setQueue qh q' with
            timers := s.timers ++ [(ci, uuid, timeout)] } : Broker).updateConn ci
          fun c =>
            { c with unconfirmed := aupsert uuid (.inFlight qh object) c.unconfirmed })

/-- `Connection::confirm` (connection.rs lines 186-212): remove the entry
(`HashMap::remove`); answer `NoSuchEntity` when absent; otherwise inspect
the cancellation future: unresolved (`inFlight`) — fire the confirm
completer and answer `Confirmed`; aborted (`requeuedOK`) — answer
`Requeued`; failed (`requeueFailed`) — retry `queue.requeue` now and answer
`Requeued` on success or `Full(id, data)` on capacity rejection. -/
def Broker.dropEntry (s : Broker) (ci : Nat) (uuid : Nat) : Broker :=
  s.updateConn ci fun c' =>
    { c' with unconfirmed := aremove uuid c'.unconfirmed }

def Broker.confirm (s : Broker) (ci : Nat) (uuid : Nat) :
    ServerMessage × Broker :=
  match s.conns.get? ci with
  | none => (.noSuchEntity, s)
  | some c =>
    match alookup uuid c.unconfirmed with
    | none => (.noSuchEntity, s)
    | some (.inFlight _ _) => (.confirmed, s.dropEntry ci uuid)
    | some .requeuedOK => (.requeued, s.dropEntry ci uuid)
    | some (.requeueFailed qh object) =>
      match ((s.dropEntry ci uuid).getQueue qh).requeue uuid object with
      | .ok q' => (.requeued, (s.dropEntry ci uuid).setQueue qh q')
      | .error (u, d) => (.full u d, s.dropEntry ci uuid)

/-- The per-request dispatch of `Connection::readable` (connection.rs lines
87-114): one decoded `ClientMessage` in, exactly one `ServerMessage` out.
`Enqueue` draws a fresh uuid (`Uuid::new_v4()`, line 100) whether or not
the queue exists. -/
def Broker.dispatch (s : Broker) (ci : Nat) (m : ClientMessage) :
    ServerMessage × Broker :=
  match m with
  | .createQueue name => (.queueCreated, s.insertQueue name)
  | .deleteQueue name =>
    match s.removeQueue name with
    | (some _, s') => (.queueDeleted, s')
    | (none, s') => (.noSuchEntity, s')
  | .enqueue name object =>
    match alookup name s.names with
    | none => (.noSuchEntity, { s with nextId := s.nextId + 1 })
    | some qh =>
      match (s.getQueue qh).enqueue s.nextId object with
      | .ok q' =>
        (.objectQueued s.nextId,
          ({ s with nextId := s.nextId + 1 } : Broker).setQueue qh q')
      | .error (u, d) => (.full u d, { s with nextId := s.nextId + 1 })
  | .read name timeout => s.read_ms ci name timeout
  | .confirm uuid => s.confirm ci uuid

/-- Timer expiry (`rt.rs` lines 216-218 completes the timeout future; the
select coordinator of connection.rs lines 157-171 then runs its timeout
branch, unless the confirm future fired first).  The armed timer for
`(ci, uuid)` is consumed.  If the entry is still in flight, the coordinator
requeues the captured `(uuid, object)` into the captured queue handle; the
map entry is not removed — only its observable cancellation state changes
(to `requeuedOK`, or to `requeueFailed` carrying `(queue, id, data)`).
If the entry was already removed or resolved, the confirm future fired
first and the select coordinator does nothing to the broker state. -/
def Broker.fireTimerGo (s0 : Broker) (ci : Nat) (uuid : Nat) : Broker :=
  match s0.conns.get? ci with
  | none => s0
  | some c =>
    match alookup uuid c.unconfirmed with
    | some (.inFlight qh object) =>
      match (s0.getQueue qh).requeue uuid object with
      | .ok q' =>
        (s0.setQueue qh q').updateConn ci fun c' =>
          { c' with unconfirmed := aset uuid .requeuedOK c'.unconfirmed }
      | .error _ =>
        s0.updateConn ci fun c' =>
          { c' with unconfirmed := aset uuid (.requeueFailed qh object) c'.unconfirmed }
    | _ => s0

def Broker.fireTimer (s : Broker) (ci : Nat) (uuid : Nat) : Broker :=
  if s.timers.any fun t => t.1 == ci && t.2.1 == uuid then
    Broker.fireTimerGo
      { s with timers := s.timers.eraseP fun t => t.1 == ci && t.2.1 == uuid }
      ci uuid
  else s

/-- The message-level events that drive the broker: a new client connection
is accepted (`rt.rs` `accept`), a decoded request is dispatched on a
connection (`Connection::readable`), or a reactor timer fires
(`rt.rs` `timeout`). -/
inductive Event
  | newConn
  | request (ci : Nat) (m : ClientMessage)
  | timer (ci : Nat) (uuid : Nat)

def Broker.exec (s : Broker) : Event → Broker
  | .newConn => { s with conns := s.conns ++ [Conn.new] }
  | .request ci m => (s.dispatch ci m).2
  | .timer ci uuid => s.fireTimer ci uuid

def Broker.run (s : Broker) (es : List Event) : Broker :=
  es.foldl Broker.exec s

/-- A broker state is reachable when some event sequence produces it from
an empty broker (over either backend). -/
def Broker.Reachable (s : Broker) : Prop :=
  ∃ qcap es, s = (Broker.init qcap).run es

/-! ## Identifier accounting -/

/-- How many items of queue `q` carry the identifier `id`. -/
def GQueue.idCount (q : GQueue) (id : Nat) : Nat :=
  (q.items.filter fun p => p.1 == id).length

/-- How many live (in-flight or requeue-failed) unconfirmed entries of
connection `c` are keyed by `id`. -/
def Conn.liveCount (c : Conn) (id : Nat) : Nat :=
  (c.unconfirmed.filter fun p => p.1 == id && p.2.live).length

/-- How many unconfirmed entries of connection `c` (in any state) are keyed
by `id`. -/
def Conn.keyCount (c : Conn) (id : Nat) : Nat :=
  (c.unconfirmed.filter fun p => p.1 == id).length

/-- How many enqueued items across all queues carry the identifier `id`. -/
def Broker.qCount (s : Broker) (id : Nat) : Nat :=
  (s.store.map fun q => q.idCount id).sum

/-- How many live unconfirmed entries across all connections are keyed by
`id`. -/
def Broker.liveCount (s : Broker) (id : Nat) : Nat :=
  (s.conns.map fun c => c.liveCount id).sum

/-- How many unconfirmed entries across all connections are keyed by `id`. -/
def Broker.keyCount (s : Broker) (id : Nat) : Nat :=
  (s.conns.map fun c => c.keyCount id).sum

/-- The inductive invariant of the broker:
1. an identifier occurs at most once in total, counting enqueued items and
   live unconfirmed entries together;
2. identifiers at or above the fresh-id counter occur nowhere;
3. each connection's unconfirmed map has pairwise-distinct keys. -/
def Broker.Inv (s : Broker) : Prop :=
  (∀ id, s.qCount id + s.liveCount id ≤ 1) ∧
  (∀ id, s.nextId ≤ id → s.qCount id = 0 ∧ s.keyCount id = 0) ∧
  (∀ c ∈ s.conns, (c.unconfirmed.map Prod.fst).Nodup)

/-- Count the bindings of key `k` whose value satisfies `f`. -/
def cnt {α : Type} (k : Nat) (f : α → Bool) (m : List (Nat × α)) : Nat :=
  (m.filter fun p => p.1 == k && f p.2).length

/-- Server `Error` (`src/server/src/error.rs` lines 7-13). -/
inductive SError
  | notify
  | overLongMessage
  | timer
  | encoding
  | ioErr
deriving DecidableEq

/-- `MAX_CLIENT_MESSAGE_LEN` (`src/common/src/lib.rs` line 12). -/
def MAX_CLIENT_MESSAGE_LEN : Nat := 2048

/-- `MAX_SERVER_MESSAGE_LEN` (`src/common/src/lib.rs` line 13). -/
def MAX_SERVER_MESSAGE_LEN : Nat := 2048

/-- The pure decode loop of `Connection::readable`: all complete requests
decodable from the head of the buffer, and the undecodable leftover.  Fuel
bounds the iteration; callers pass the buffer length, which suffices since
every decode consumes at least the 4-byte tag. -/
def decodeAllClient : Nat → Bytes → List ClientMessage × Bytes
  | 0, buf => ([], buf)
  | fuel + 1, buf =>
    match decodeClient buf with
    | none => ([], buf)
    | some (m, n) =>
      (m :: (decodeAllClient fuel (buf.drop n)).1,
        (decodeAllClient fuel (buf.drop n)).2)

/-- The decode-dispatch loop of `Connection::readable` (connection.rs lines
82-117): repeatedly decode a request off the head of the buffer, dispatch
it, and encode the response (`try!(....encode())`, whose bounded size limit
fails with an Encoding error on an overlong response).  Returns the
responses in request order, the leftover buffer and the updated broker. -/
def readLoop (ci : Nat) :
    Nat → Broker → Bytes → Except SError (List ServerMessage × Bytes × Broker)
  | 0, s, buf => .ok ([], buf, s)
  | fuel + 1, s, buf =>
    match decodeClient buf with
    | none => .ok ([], buf, s)
    | some (m, n) =>
      if MAX_SERVER_MESSAGE_LEN < (encodeServer (s.dispatch ci m).1).length then
        .error .encoding
      else
        match readLoop ci fuel (s.dispatch ci m).2 (buf.drop n) with
        | .ok (resps, rest, s') => .ok ((s.dispatch ci m).1 :: resps, rest, s')
        | .error e => .error e

/-- `Connection::readable` (connection.rs lines 69-125): drain the freshly
readable `input` bytes into the incoming buffer, decode and dispatch all
complete requests, append each encoded response to the outgoing queue, and
fail with `OverLongMessage` when the leftover buffer exceeds the maximum
request size without yielding a decode. -/
def Broker.readable (s : Broker) (ci : Nat) (input : Bytes) :
    Except SError Broker :=
  match s.conns.get? ci with
  | none => .ok s
  | some c =>
    match readLoop ci (c.incoming ++ input).length s (c.incoming ++ input) with
    | .error e => .error e
    | .ok (resps, rest, s') =>
      if MAX_CLIENT_MESSAGE_LEN < rest.length then
        .error .overLongMessage
      else
        .ok (s'.updateConn ci fun c' =>
          { c' with
            incoming := rest
            outgoing := c'.outgoing ++ resps.map encodeServer })

/-- `Connection::writable` (connection.rs lines 129-140), with the number of
bytes the non-blocking socket accepts in this round passed as `accept`.
Pops response cursors head first; an exhausted cursor (`Ok(0)`) or a
blocked socket pushes the head back and stops; a partial write pushes the
advanced cursor back.  Returns the remaining outgoing queue and the bytes
that went out on the wire, in order. -/
def writable : Nat → List Bytes → List Bytes × Bytes
  | _, [] => ([], [])
  | accept, top :: rest =>
    if top.length = 0 ∨ accept = 0 then (top :: rest, [])
    else if top.length ≤ accept then
      ((writable (accept - top.length) rest).1,
        top ++ (writable (accept - top.length) rest).2)
    else (top.drop accept :: rest, top.take accept)

/-! ## The pipelined client (`src/client/src/pipeline.rs`) -/

/-- Client `Error` (`src/client/src/error.rs`), restricted to the variants
`Pipeline` can produce. -/
inductive CError
  | noResponseExpected
  | decoding
deriving DecidableEq

/-- `Pipeline` (pipeline.rs lines 6-9): a stream plus the number of
responses still expected.  `up` holds the bytes written (requests), `down`
the bytes available to read from the server (responses). -/
structure Pipeline where
  up : Bytes
  down : Bytes
  expecting : Nat
deriving DecidableEq

/-- `Pipeline::new` (pipeline.rs lines 12-17), with the stream's read side
holding `down`. -/
def Pipeline.new (down : Bytes) : Pipeline := ⟨[], down, 0⟩

/-- `Pipeline::send` (pipeline.rs lines 19-23): encode the request onto the
stream and increment `expecting` (the `Ok` path of `encode_to`). -/
def Pipeline.send (p : Pipeline) (m : ClientMessage) : Pipeline :=
  { p with up := p.up ++ encodeClient m, expecting := p.expecting + 1 }

def Pipeline.sendAll (p : Pipeline) (ms : List ClientMessage) : Pipeline :=
  ms.foldl Pipeline.send p

/-- `Pipeline::receive` (pipeline.rs lines 27-35): refuses when no response
is expected, otherwise decodes one response and decrements `expecting`. -/
def Pipeline.receive (p : Pipeline) : Except CError (ServerMessage × Pipeline) :=
  if p.expecting = 0 then .error .noResponseExpected
  else
    match decodeServer p.down with
    | some (m, n) =>
      .ok (m, { p with down := p.down.drop n, expecting := p.expecting - 1 })
    | none => .error .decoding

/-- `ResponseIter::next` (pipeline.rs lines 49-58): if `expecting` is zero
yield `none`; otherwise block on `decode_from` and yield the decoded
response, or `none` on a decode failure.  Note that the source does NOT
decrement `expecting` here; only `Pipeline::receive` does. -/
def Pipeline.next (p : Pipeline) : Option ServerMessage × Pipeline :=
  if p.expecting = 0 then (none, p)
  else
    match decodeServer p.down with
    | some (m, n) => (some m, { p with down := p.down.drop n })
    | none => (none, p)

/-! ## The reactor registration slab (`src/server/src/rt.rs`) -/

/-- Modelled from the spec: the registration table is a mio `Slab` (an
external crate); SS4.4 describes it as a fixed-capacity table mapping
reactor tokens to Registrations, whose insertion yields the next free token
and fails when every slot is taken.  `slots` has fixed length (the
configured capacity); `none` marks a free slot. -/
structure Slab (α : Type) where
  slots : List (Option α)
deriving DecidableEq

/-- Index of the first free slot. -/
def firstFree {α : Type} : List (Option α) → Option Nat
  | [] => none
  | none :: _ => some 0
  | some _ :: rest => (firstFree rest).map (· + 1)

/-- `Slab::insert`: place the value in the first free slot and return its
token; `None` when the slab is full. -/
def Slab.insert {α : Type} (s : Slab α) (a : α) : Option (Nat × Slab α) :=
  match firstFree s.slots with
  | some i => some (i, ⟨s.slots.set i (some a)⟩)
  | none => none

/-- `Registration` (rt.rs lines 45-48), payloads elided. -/
inductive Registration
  | acceptor
  | connection
deriving DecidableEq

/-- `Handler::register` (rt.rs lines 104-107):
`self.slab.insert(registration).ok().expect("No space for a new registration
in the handler slab.")` — a full slab panics the reactor thread (modelled as
`Except.error` carrying the panic message). -/
def register (slab : Slab Registration) (r : Registration) :
    Except String (Nat × Slab Registration) :=
  match slab.insert r with
  | some t => .ok t
  | none => .error "No space for a new registration in the handler slab."

/-- The slab-registration step of `Handler::accept` (rt.rs lines 74-76) for
a newly accepted client connection. -/
def acceptRegister (slab : Slab Registration) :
    Except String (Nat × Slab Registration) :=
  register slab .connection

/-- The slab-registration step of `Handler::notify` for `Message::Acceptor`
(rt.rs lines 196-197). -/
def notifyAcceptorRegister (slab : Slab Registration) :
    Except String (Nat × Slab Registration) :=
  register slab .acceptor

/-! ## The Confirm handler over the raw cancellation poll -/

/-- The outcome of `cancellation_rx.poll()` as matched by
`Connection::confirm` (connection.rs lines 189-210): `Ok(Ok(()))`,
`Ok(Err(AsyncError::Aborted))`, `Ok(Err(AsyncError::Failed((queue, id,
data))))`, or `Err(_)` (the future is not yet resolved). -/
inductive CancellationPoll
  | completed
  | aborted
  | failed (queue : GQueue) (id : Nat) (data : Bytes)
  | pending
deriving DecidableEq

/-- What the `Confirm` handler did: the response, whether
`confirm_tx.complete(())` ran, and the queue updated by the immediate
requeue retry of the failed case (if any). -/
structure ConfirmOutcome where
  response : ServerMessage
  firedConfirm : Bool
  requeuedInto : Option GQueue
deriving DecidableEq

/-- `Connection::confirm` (connection.rs lines 186-212) as a function of
`unconfirmed.remove(uuid)`: `none` when the id was absent from the map,
otherwise the polled state of the removed entry's cancellation future. -/
def confirmStep (entry : Option CancellationPoll) : ConfirmOutcome :=
  match entry with
  | none => ⟨.noSuchEntity, false, none⟩
  | some .completed => ⟨.requeued, false, none⟩
  | some .aborted => ⟨.requeued, false, none⟩
  | some (.failed queue id data) =>
    match queue.requeue id data with
    | .ok q' => ⟨.requeued, false, some q'⟩
    | .error (u, d) => ⟨.full u d, false, none⟩
  | some .pending => ⟨.confirmed, true, none⟩

/-- The incoming buffer and outgoing queue of a connection, which the
request dispatch never touches (it only consults queues and the
unconfirmed map). -/
def ioProj (c : Conn) : Bytes × List Bytes := (c.incoming, c.outgoing)

/-- A reachable broker over the single-thread backend: one connection, queue
"f" (`[102]`), one enqueued byte, a Read with a 10 ms timeout, then the
redelivery timer fires and the message is requeued. -/
def exC1 : Broker :=
  (Broker.init none).run
    [.newConn, .request 0 (.createQueue [102]),
     .request 0 (.enqueue [102] [7]), .request 0 (.read [102] 10),
     .timer 0 0]

/-- One connection, queue "f" with one enqueued byte (nothing read yet). -/
def exC2 : Broker :=
  (Broker.init none).run
    [.newConn, .request 0 (.createQueue [102]),
     .request 0 (.enqueue [102] [7])]

/-- Requeue-to-head scenario state: Enqueue a (`[10]`, id 0), Enqueue b
(`[11]`, id 1), Read (delivers a), timer elapses without Confirm (a is
requeued at the head). -/
def exC4 : Broker :=
  (Broker.init none).run
    [.newConn, .request 0 (.createQueue [102]),
     .request 0 (.enqueue [102] [10]), .request 0 (.enqueue [102] [11]),
     .request 0 (.read [102] 5), .timer 0 0]

/-- A bounded broker at capacity: queue "q" (`[113]`) of capacity 1 holding
one message. -/
def exC7 : Broker :=
  ⟨some 1, [⟨some 1, [(0, [1])]⟩], [([113], 0)], [Conn.new], [], 1⟩

def brokerC6 : Broker := ⟨none, [], [], [Conn.new], [], 0⟩

def brokerC8 : Broker := ⟨none, [], [], [Conn.new], [], 0⟩

def inputC8 : Bytes :=
  encodeClient (.deleteQueue [102]) ++ encodeClient (.deleteQueue [102])

/-- The state `brokerC8.readable 0 inputC8` produces: both `DeleteQueue`
requests answer `NoSuchEntity`, whose encodings are appended in order. -/
def brokerC8' : Broker :=
  ⟨none, [], [], [⟨[], [natToLE 4 8, natToLE 4 8], []⟩], [], 0⟩

/-- A pipeline that sent one request while the stream already holds two
decodable responses. -/
def pipeC5 : Pipeline :=
  (Pipeline.new (encodeServer .queueCreated ++ encodeServer .queueDeleted)).send
    (.createQueue [102])

/-! ## The claims -/

theorem natToLE_length (w n : Nat) : (natToLE w n).length = w := by
  induction w generalizing n with
  | zero => rfl
  | succ w ih => simp [natToLE, ih]

theorem leToNat_natToLE (w n : Nat) (h : n < 256 ^ w) :
    leToNat (natToLE w n) = n := by
  induction w generalizing n with
  | zero =>
    simp [natToLE, leToNat]
    omega
  | succ w ih =>
    have hdiv : n / 256 < 256 ^ w := by
      rw [Nat.div_lt_iff_lt_mul (by norm_num : 0 < 256)]
      calc n < 256 ^ (w + 1) := h
        _ = 256 ^ w * 256 := by rw [pow_succ]
    simp only [natToLE, leToNat, ih _ hdiv]
    omega

theorem readBytes_append (k : Nat) (l rest : Bytes) (h : l.length = k) :
    readBytes k (l ++ rest) = some (l, rest) := by
  subst h
  simp [readBytes, List.take_left, List.drop_left]

theorem decodeUInt_natToLE (w n : Nat) (rest : Bytes) (h : n < 256 ^ w) :
    decodeUInt w (natToLE w n ++ rest) = some (n, rest) := by
  simp [decodeUInt, readBytes_append w _ rest (natToLE_length w n),
    leToNat_natToLE w n h]

theorem decodeLPBytes_encodeLPBytes (b rest : Bytes) (h : b.length < 2 ^ 64) :
    decodeLPBytes (encodeLPBytes b ++ rest) = some (b, rest) := by
  have h' : b.length < 256 ^ 8 := by norm_num at h ⊢; omega
  simp [decodeLPBytes, encodeLPBytes, List.append_assoc,
    decodeUInt_natToLE 8 b.length (b ++ rest) h',
    readBytes_append b.length b rest rfl]

theorem length_append_sub (a b : Bytes) : (a ++ b).length - b.length = a.length := by
  simp [List.length_append]

theorem decodeClient_encodeClient (m : ClientMessage) (extra : Bytes) (h : WFClient m) :
    decodeClient (encodeClient m ++ extra) = some (m, (encodeClient m).length) := by
  have h64 : (2 : Nat) ^ 64 = 256 ^ 8 := by norm_num
  have h128 : (2 : Nat) ^ 128 = 256 ^ 16 := by norm_num
  cases m with
  | createQueue name =>
    rw [WFClient, h64] at h
    simp [decodeClient, encodeClient, List.append_assoc,
      decodeUInt_natToLE 4 0 _ (by norm_num),
      decodeLPBytes_encodeLPBytes name extra (by rw [h64]; exact h),
      length_append_sub]
    omega
  | deleteQueue name =>
    rw [WFClient, h64] at h
    simp [decodeClient, encodeClient, List.append_assoc,
      decodeUInt_natToLE 4 1 _ (by norm_num),
      decodeLPBytes_encodeLPBytes name extra (by rw [h64]; exact h),
      length_append_sub]
    omega
  | enqueue name object =>
    obtain ⟨hn, ho⟩ := h
    simp [decodeClient, encodeClient, List.append_assoc,
      decodeUInt_natToLE 4 2 _ (by norm_num),
      decodeLPBytes_encodeLPBytes name _ hn,
      decodeLPBytes_encodeLPBytes object extra ho,
      length_append_sub]
    omega
  | read name timeout =>
    obtain ⟨hn, ht⟩ := h
    rw [h64] at ht
    simp [decodeClient, encodeClient, List.append_assoc,
      decodeUInt_natToLE 4 3 _ (by norm_num),
      decodeLPBytes_encodeLPBytes name _ hn,
      decodeUInt_natToLE 8 timeout extra ht,
      length_append_sub]
    omega
  | confirm uuid =>
    rw [WFClient, h128] at h
    simp [decodeClient, encodeClient, List.append_assoc,
      decodeUInt_natToLE 4 4 _ (by norm_num),
      decodeUInt_natToLE 16 uuid extra h,
      length_append_sub]
    omega

theorem decodeServer_encodeServer (m : ServerMessage) (extra : Bytes) (h : WFServer m) :
    decodeServer (encodeServer m ++ extra) = some (m, (encodeServer m).length) := by
  have h64 : (2 : Nat) ^ 64 = 256 ^ 8 := by norm_num
  have h128 : (2 : Nat) ^ 128 = 256 ^ 16 := by norm_num
  cases m with
  | queueCreated =>
    simp [decodeServer, encodeServer, decodeUInt_natToLE 4 0 _ (by norm_num),
      length_append_sub]
  | queueDeleted =>
    simp [decodeServer, encodeServer, decodeUInt_natToLE 4 1 _ (by norm_num),
      length_append_sub]
  | objectQueued uuid =>
    rw [WFServer, h128] at h
    simp [decodeServer, encodeServer, List.append_assoc,
      decodeUInt_natToLE 4 2 _ (by norm_num),
      decodeUInt_natToLE 16 uuid extra h,
      length_append_sub]
    omega
  | read uuid object =>
    obtain ⟨hu, ho⟩ := h
    rw [h128] at hu
    simp [decodeServer, encodeServer, List.append_assoc,
      decodeUInt_natToLE 4 3 _ (by norm_num),
      decodeUInt_natToLE 16 uuid _ hu,
      decodeLPBytes_encodeLPBytes object extra ho,
      length_append_sub]
    omega
  | confirmed =>
    simp [decodeServer, encodeServer, decodeUInt_natToLE 4 4 _ (by norm_num),
      length_append_sub]
  | requeued =>
    simp [decodeServer, encodeServer, decodeUInt_natToLE 4 5 _ (by norm_num),
      length_append_sub]
  | full uuid object =>
    obtain ⟨hu, ho⟩ := h
    rw [h128] at hu
    simp [decodeServer, encodeServer, List.append_assoc,
      decodeUInt_natToLE 4 6 _ (by norm_num),
      decodeUInt_natToLE 16 uuid _ hu,
      decodeLPBytes_encodeLPBytes object extra ho,
      length_append_sub]
    omega
  | empty =>
    simp [decodeServer, encodeServer, decodeUInt_natToLE 4 7 _ (by norm_num),
      length_append_sub]
  | noSuchEntity =>
    simp [decodeServer, encodeServer, decodeUInt_natToLE 4 8 _ (by norm_num),
      length_append_sub]

/-! ## Queue backends (`src/server/src/queue/`)

Both backends hold `(Uuid, Vec<u8>)` pairs; `Uuid` is `Nat` here. -/

theorem gqueue_none_enqueue_agrees (items : List (Nat × Bytes)) (id : Nat)
    (data : Bytes) :
    GQueue.enqueue ⟨none, items⟩ id data =
      (RcQueue.enqueue items id data).map fun q => ⟨none, q⟩ := rfl

theorem gqueue_none_requeue_agrees (items : List (Nat × Bytes)) (id : Nat)
    (data : Bytes) :
    GQueue.requeue ⟨none, items⟩ id data =
      (RcQueue.requeue items id data).map fun q => ⟨none, q⟩ := rfl

theorem gqueue_some_enqueue_agrees (c : Nat) (items : List (Nat × Bytes))
    (id : Nat) (data : Bytes) :
    GQueue.enqueue ⟨some c, items⟩ id data =
      (ConcurrentQueue.enqueue ⟨c, items⟩ id data).map fun q =>
        ⟨some q.capacity, q.channel⟩ := by
  simp only [GQueue.enqueue, ConcurrentQueue.enqueue]
  split <;> rfl

theorem gqueue_some_requeue_agrees (c : Nat) (items : List (Nat × Bytes))
    (id : Nat) (data : Bytes) :
    GQueue.requeue ⟨some c, items⟩ id data =
      (ConcurrentQueue.requeue ⟨c, items⟩ id data).map fun q =>
        ⟨some q.capacity, q.channel⟩ :=
  gqueue_some_enqueue_agrees c items id data

/-! ## Association lists

`HashMap<Uuid, _>` (the unconfirmed map) and `HashMap<String, _>` (the
queue-name map) are embedded as association lists with unique keys. -/

theorem alookup_cons {κ α : Type} [DecidableEq κ] (k a : κ) (b : α)
    (m : List (κ × α)) :
    alookup k ((a, b) :: m) = if a = k then some b else alookup k m := rfl

theorem cnt_cons {α : Type} (k a : Nat) (b : α) (f : α → Bool)
    (m : List (Nat × α)) :
    cnt k f ((a, b) :: m) = (if a = k ∧ f b = true then 1 else 0) + cnt k f m := by
  cases hb : f b <;> by_cases ha : a = k <;>
    simp [cnt, List.filter_cons, ha, hb] <;> omega

theorem alookup_eq_none_of_not_mem {κ α : Type} [DecidableEq κ] (k : κ)
    (m : List (κ × α)) (h : k ∉ m.map Prod.fst) : alookup k m = none := by
  induction m with
  | nil => rfl
  | cons p rest ih =>
    obtain ⟨a, b⟩ := p
    simp only [List.map_cons, List.mem_cons, not_or] at h
    rw [alookup_cons, if_neg fun hak => h.1 hak.symm]
    exact ih h.2

theorem cnt_eq_zero_of_alookup_none {α : Type} (k : Nat) (f : α → Bool)
    (m : List (Nat × α)) (h : alookup k m = none) : cnt k f m = 0 := by
  induction m with
  | nil => rfl
  | cons p rest ih =>
    obtain ⟨a, b⟩ := p
    rw [alookup_cons] at h
    by_cases ha : a = k
    · rw [if_pos ha] at h
      exact absurd h (by simp)
    · rw [if_neg ha] at h
      rw [cnt_cons, if_neg fun hc => ha hc.1, ih h]

theorem cnt_alookup_some {α : Type} (k : Nat) (f : α → Bool)
    (m : List (Nat × α)) (v : α) (h : alookup k m = some v)
    (nd : (m.map Prod.fst).Nodup) :
    cnt k f m = if f v = true then 1 else 0 := by
  induction m with
  | nil => exact absurd h (by simp [alookup])
  | cons p rest ih =>
    obtain ⟨a, b⟩ := p
    simp only [List.map_cons, List.nodup_cons] at nd
    rw [alookup_cons] at h
    by_cases ha : a = k
    · rw [if_pos ha] at h
      obtain rfl : b = v := by injection h
      have h0 : cnt k f rest = 0 :=
        cnt_eq_zero_of_alookup_none k f rest
          (alookup_eq_none_of_not_mem k rest (ha ▸ nd.1))
      rw [cnt_cons, h0]
      by_cases hb : f b = true
      · rw [if_pos ⟨ha, hb⟩, if_pos hb]
      · rw [if_neg fun hc => hb hc.2, if_neg hb]
    · rw [if_neg ha] at h
      rw [cnt_cons, if_neg fun hc => ha hc.1, Nat.zero_add]
      exact ih h nd.2

theorem keys_aremove_sublist {κ α : Type} [DecidableEq κ] (k : κ)
    (m : List (κ × α)) :
    ((aremove k m).map Prod.fst).Sublist (m.map Prod.fst) := by
  induction m with
  | nil => exact List.Sublist.refl _
  | cons p rest ih =>
    obtain ⟨a, b⟩ := p
    by_cases ha : a = k
    · simp only [aremove, if_pos ha, List.map_cons]
      exact List.sublist_cons_self a _
    · simp only [aremove, if_neg ha, List.map_cons]
      exact ih.cons₂ a

theorem nodup_keys_aremove {κ α : Type} [DecidableEq κ] (k : κ)
    (m : List (κ × α)) (nd : (m.map Prod.fst).Nodup) :
    ((aremove k m).map Prod.fst).Nodup :=
  nd.sublist (keys_aremove_sublist k m)

theorem not_mem_keys_aremove {κ α : Type} [DecidableEq κ] (k : κ)
    (m : List (κ × α)) (nd : (m.map Prod.fst).Nodup) :
    k ∉ (aremove k m).map Prod.fst := by
  induction m with
  | nil => simp [aremove]
  | cons p rest ih =>
    obtain ⟨a, b⟩ := p
    simp only [List.map_cons, List.nodup_cons] at nd
    by_cases ha : a = k
    · simpa only [aremove, if_pos ha] using ha ▸ nd.1
    · simp only [aremove, if_neg ha, List.map_cons, List.mem_cons, not_or]
      exact ⟨fun hka => ha hka.symm, ih nd.2⟩

theorem nodup_keys_aupsert {κ α : Type} [DecidableEq κ] (k : κ) (v : α)
    (m : List (κ × α)) (nd : (m.map Prod.fst).Nodup) :
    ((aupsert k v m).map Prod.fst).Nodup := by
  simp only [aupsert, List.map_cons, List.nodup_cons]
  exact ⟨not_mem_keys_aremove k m nd, nodup_keys_aremove k m nd⟩

theorem keys_aset {κ α : Type} [DecidableEq κ] (k : κ) (v : α)
    (m : List (κ × α)) : (aset k v m).map Prod.fst = m.map Prod.fst := by
  induction m with
  | nil => rfl
  | cons p rest ih =>
    obtain ⟨a, b⟩ := p
    by_cases ha : a = k
    · simp [aset, if_pos ha, ha]
    · simp [aset, if_neg ha, ih]

theorem cnt_aremove_ne {α : Type} (k k' : Nat) (f : α → Bool)
    (m : List (Nat × α)) (h : k' ≠ k) :
    cnt k' f (aremove k m) = cnt k' f m := by
  induction m with
  | nil => rfl
  | cons p rest ih =>
    obtain ⟨a, b⟩ := p
    by_cases ha : a = k
    · simp only [aremove, if_pos ha]
      rw [cnt_cons, if_neg fun hc : a = k' ∧ f b = true => h (hc.1.symm.trans ha)]
      omega
    · simp only [aremove, if_neg ha]
      rw [cnt_cons, cnt_cons, ih]

theorem cnt_aremove_self {α : Type} (k : Nat) (f : α → Bool)
    (m : List (Nat × α)) (nd : (m.map Prod.fst).Nodup) :
    cnt k f (aremove k m) = 0 :=
  cnt_eq_zero_of_alookup_none k f _
    (alookup_eq_none_of_not_mem k _ (not_mem_keys_aremove k m nd))

theorem cnt_aupsert_self {α : Type} (k : Nat) (f : α → Bool) (v : α)
    (m : List (Nat × α)) (nd : (m.map Prod.fst).Nodup) :
    cnt k f (aupsert k v m) = if f v = true then 1 else 0 := by
  rw [aupsert, cnt_cons, cnt_aremove_self k f m nd]
  by_cases hv : f v = true
  · rw [if_pos ⟨rfl, hv⟩, if_pos hv]
  · rw [if_neg fun hc => hv hc.2, if_neg hv]

theorem cnt_aupsert_ne {α : Type} (k k' : Nat) (f : α → Bool) (v : α)
    (m : List (Nat × α)) (h : k' ≠ k) :
    cnt k' f (aupsert k v m) = cnt k' f m := by
  rw [aupsert, cnt_cons, if_neg fun hc => h hc.1.symm, Nat.zero_add,
    cnt_aremove_ne k k' f m h]

theorem cnt_aset_ne {α : Type} (k k' : Nat) (f : α → Bool) (v : α)
    (m : List (Nat × α)) (h : k' ≠ k) :
    cnt k' f (aset k v m) = cnt k' f m := by
  induction m with
  | nil => rfl
  | cons p rest ih =>
    obtain ⟨a, b⟩ := p
    by_cases ha : a = k
    · simp only [aset, if_pos ha]
      rw [cnt_cons, cnt_cons,
        if_neg fun hc : a = k' ∧ f v = true => h (hc.1.symm.trans ha),
        if_neg fun hc : a = k' ∧ f b = true => h (hc.1.symm.trans ha)]
    · simp only [aset, if_neg ha]
      rw [cnt_cons, cnt_cons, ih]

theorem cnt_aset_self {α : Type} (k : Nat) (f : α → Bool) (v e : α)
    (m : List (Nat × α)) (h : alookup k m = some e)
    (nd : (m.map Prod.fst).Nodup) :
    cnt k f (aset k v m) = if f v = true then 1 else 0 := by
  induction m with
  | nil => exact absurd h (by simp [alookup])
  | cons p rest ih =>
    obtain ⟨a, b⟩ := p
    simp only [List.map_cons, List.nodup_cons] at nd
    rw [alookup_cons] at h
    by_cases ha : a = k
    · simp only [aset, if_pos ha]
      have h0 : cnt k f rest = 0 :=
        cnt_eq_zero_of_alookup_none k f rest
          (alookup_eq_none_of_not_mem k rest (ha ▸ nd.1))
      rw [cnt_cons, h0]
      by_cases hv : f v = true
      · rw [if_pos ⟨ha, hv⟩, if_pos hv]
      · rw [if_neg fun hc => hv hc.2, if_neg hv]
    · rw [if_neg ha] at h
      simp only [aset, if_neg ha]
      rw [cnt_cons, if_neg fun hc => ha hc.1, Nat.zero_add]
      exact ih h nd.2

theorem aset_of_alookup_none {κ α : Type} [DecidableEq κ] (k : κ) (v : α)
    (m : List (κ × α)) (h : alookup k m = none) : aset k v m = m := by
  induction m with
  | nil => rfl
  | cons p rest ih =>
    obtain ⟨a, b⟩ := p
    rw [alookup_cons] at h
    by_cases ha : a = k
    · rw [if_pos ha] at h
      exact absurd h (by simp)
    · rw [if_neg ha] at h
      simp [aset, if_neg ha, ih h]

theorem sum_map_set {α : Type} (f : α → Nat) (l : List α) (i : Nat) (a : α)
    (h : i < l.length) :
    ((l.set i a).map f).sum + f (l.get ⟨i, h⟩) = (l.map f).sum + f a := by
  induction l generalizing i with
  | nil => exact absurd h (by simp)
  | cons x xs ih =>
    cases i with
    | zero =>
      have hget : (x :: xs).get ⟨0, h⟩ = x := rfl
      rw [hget]
      simp only [List.set, List.map_cons, List.sum_cons]
      omega
    | succ i =>
      have h' : i < xs.length := by simpa using h
      have hget : (x :: xs).get ⟨i + 1, h⟩ = xs.get ⟨i, h'⟩ := rfl
      have := ih i h'
      rw [hget] at *
      simp only [List.set, List.map_cons, List.sum_cons]
      omega

theorem sum_map_mem_le {α : Type} (f : α → Nat) (l : List α) (x : α)
    (hx : x ∈ l) : f x ≤ (l.map f).sum :=
  List.single_le_sum (fun y _ => Nat.zero_le y) _ (List.mem_map_of_mem f hx)

theorem liveCount_eq_cnt (c : Conn) (id : Nat) :
    c.liveCount id = cnt id Entry.live c.unconfirmed := rfl

theorem keyCount_eq_cnt (c : Conn) (id : Nat) :
    c.keyCount id = cnt id (fun _ => true) c.unconfirmed := by
  unfold Conn.keyCount cnt
  congr 1
  induction c.unconfirmed with
  | nil => rfl
  | cons p rest ih => simp [List.filter_cons, ih]

theorem cnt_le_cnt_true {α : Type} (k : Nat) (f : α → Bool)
    (m : List (Nat × α)) : cnt k f m ≤ cnt k (fun _ => true) m := by
  induction m with
  | nil => exact Nat.le_refl 0
  | cons p rest ih =>
    obtain ⟨a, b⟩ := p
    rw [cnt_cons, cnt_cons]
    by_cases ha : a = k
    · by_cases hb : f b = true
      · rw [if_pos ⟨ha, hb⟩, if_pos ⟨ha, rfl⟩]; omega
      · rw [if_neg fun hc => hb hc.2, if_pos ⟨ha, rfl⟩]; omega
    · rw [if_neg fun hc => ha hc.1, if_neg fun hc => ha hc.1]; omega

theorem conn_liveCount_le_keyCount (c : Conn) (id : Nat) :
    c.liveCount id ≤ c.keyCount id := by
  rw [liveCount_eq_cnt, keyCount_eq_cnt]
  exact cnt_le_cnt_true id Entry.live c.unconfirmed

theorem liveCount_le_keyCount (s : Broker) (id : Nat) :
    s.liveCount id ≤ s.keyCount id :=
  List.sum_le_sum fun c _ => conn_liveCount_le_keyCount c id

theorem getQueue_in_range (s : Broker) (qh : Nat) (h : qh < s.store.length) :
    s.getQueue qh = s.store.get ⟨qh, h⟩ := by
  simp [Broker.getQueue, List.getElem?_eq_getElem h]

theorem getQueue_oob (s : Broker) (qh : Nat) (h : s.store.length ≤ qh) :
    s.getQueue qh = ⟨s.qcap, []⟩ := by
  have hnone : s.store[qh]? = none := by
    simpa using List.get?_eq_none.mpr h
  simp [Broker.getQueue, hnone]

theorem setQueue_oob (s : Broker) (qh : Nat) (q' : GQueue)
    (h : s.store.length ≤ qh) : s.setQueue qh q' = s := by
  simp [Broker.setQueue, List.set_eq_of_length_le h]

theorem qCount_setQueue (s : Broker) (qh : Nat) (q' : GQueue) (id : Nat)
    (h : qh < s.store.length) :
    (s.setQueue qh q').qCount id + (s.getQueue qh).idCount id
      = s.qCount id + q'.idCount id := by
  rw [getQueue_in_range s qh h]
  exact sum_map_set (fun q => q.idCount id) s.store qh q' h

theorem getQueue_idCount_le (s : Broker) (qh : Nat) (id : Nat)
    (h : qh < s.store.length) :
    (s.getQueue qh).idCount id ≤ s.qCount id := by
  rw [getQueue_in_range s qh h]
  exact sum_map_mem_le (fun q => q.idCount id) s.store _
    (s.store.get_mem qh h)

theorem updateConn_none (s : Broker) (ci : Nat) (g : Conn → Conn)
    (h : s.conns.get? ci = none) : s.updateConn ci g = s := by
  unfold Broker.updateConn
  rw [h]

theorem sum_conns_updateConn (s : Broker) (ci : Nat) (g : Conn → Conn)
    (c : Conn) (f : Conn → Nat) (h : s.conns.get? ci = some c) :
    (((s.updateConn ci g).conns.map f).sum) + f c
      = (s.conns.map f).sum + f (g c) := by
  obtain ⟨hlt, hget⟩ := List.get?_eq_some.mp h
  simp only [Broker.updateConn, h]
  exact hget ▸ sum_map_set f s.conns ci (g c) hlt

theorem conn_count_le (s : Broker) (ci : Nat) (c : Conn) (f : Conn → Nat)
    (h : s.conns.get? ci = some c) : f c ≤ (s.conns.map f).sum :=
  sum_map_mem_le f s.conns c (List.get?_mem h)

theorem filterIdLen_append_single (items : List (Nat × Bytes)) (id idc : Nat)
    (data : Bytes) :
    ((items ++ [(id, data)]).filter fun p => p.1 == idc).length
      = (items.filter fun p => p.1 == idc).length + (if id = idc then 1 else 0) := by
  by_cases h : id = idc <;> simp [List.filter_append, List.filter_cons, h]

theorem filterIdLen_cons (a : Nat) (b : Bytes) (items : List (Nat × Bytes))
    (idc : Nat) :
    (((a, b) :: items).filter fun p => p.1 == idc).length
      = (if a = idc then 1 else 0) + (items.filter fun p => p.1 == idc).length := by
  by_cases h : a = idc <;> simp [List.filter_cons, h] <;> omega

theorem GQueue.enqueue_ok {q : GQueue} {id : Nat} {data : Bytes} {q' : GQueue}
    (h : q.enqueue id data = .ok q') :
    q'.cap = q.cap ∧ q'.items = q.items ++ [(id, data)] := by
  obtain ⟨cap, items⟩ := q
  cases cap with
  | none =>
    simp only [GQueue.enqueue, Except.ok.injEq] at h
    rw [← h]
    exact ⟨rfl, rfl⟩
  | some c =>
    simp only [GQueue.enqueue] at h
    by_cases hlen : items.length < c
    · rw [if_pos hlen] at h
      simp only [Except.ok.injEq] at h
      rw [← h]
      exact ⟨rfl, rfl⟩
    · rw [if_neg hlen] at h
      exact absurd h (by simp)

theorem GQueue.requeue_ok_idCount {q : GQueue} {id : Nat} {data : Bytes}
    {q' : GQueue} (h : q.requeue id data = .ok q') (idc : Nat) :
    q'.idCount idc = q.idCount idc + (if id = idc then 1 else 0) := by
  obtain ⟨cap, items⟩ := q
  cases cap with
  | none =>
    simp only [GQueue.requeue, Except.ok.injEq] at h
    rw [← h]
    simp only [GQueue.idCount]
    rw [filterIdLen_cons]
    omega
  | some c =>
    have heq := @GQueue.enqueue_ok ⟨some c, items⟩ id data q' h
    simp only [GQueue.idCount, heq.2]
    exact filterIdLen_append_single items id idc data

theorem GQueue.enqueue_ok_idCount {q : GQueue} {id : Nat} {data : Bytes}
    {q' : GQueue} (h : q.enqueue id data = .ok q') (idc : Nat) :
    q'.idCount idc = q.idCount idc + (if id = idc then 1 else 0) := by
  simp only [GQueue.idCount, (GQueue.enqueue_ok h).2]
  exact filterIdLen_append_single q.items id idc data

theorem GQueue.dequeue_some {q : GQueue} {x : Nat × Bytes} {q' : GQueue}
    (h : q.dequeue = some (x, q')) :
    q.items = x :: q'.items := by
  obtain ⟨cap, items⟩ := q
  cases items with
  | nil => exact absurd h (by simp [GQueue.dequeue])
  | cons y ys =>
    simp only [GQueue.dequeue, Option.some.injEq, Prod.mk.injEq] at h
    rw [← h.1, ← h.2]

theorem GQueue.dequeue_some_idCount {q : GQueue} {x : Nat × Bytes} {q' : GQueue}
    (h : q.dequeue = some (x, q')) (idc : Nat) :
    q.idCount idc = (if x.1 = idc then 1 else 0) + q'.idCount idc := by
  have := GQueue.dequeue_some h
  simp only [GQueue.idCount, this]
  obtain ⟨a, b⟩ := x
  exact filterIdLen_cons a b q'.items idc

theorem dequeue_oob_none (s : Broker) (qh : Nat) (h : s.store.length ≤ qh) :
    (s.getQueue qh).dequeue = none := by
  rw [getQueue_oob s qh h]
  rfl

theorem inv_of_counts (s s' : Broker)
    (hq : ∀ id, s'.qCount id = s.qCount id)
    (hl : ∀ id, s'.liveCount id = s.liveCount id)
    (hk : ∀ id, s'.keyCount id = s.keyCount id)
    (hn : s.nextId ≤ s'.nextId)
    (hc : ∀ c ∈ s'.conns, (c.unconfirmed.map Prod.fst).Nodup)
    (h : s.Inv) : s'.Inv := by
  obtain ⟨h1, h2, h3⟩ := h
  refine ⟨fun id => ?_, fun id hid => ?_, hc⟩
  · rw [hq, hl]
    exact h1 id
  · rw [hq, hk]
    exact h2 id (le_trans hn hid)

theorem inv_newConn (s : Broker) (h : s.Inv) :
    ({ s with conns := s.conns ++ [Conn.new] } : Broker).Inv := by
  refine inv_of_counts s _ (fun id => rfl) (fun id => ?_) (fun id => ?_)
    (Nat.le_refl _) (fun c hc => ?_) h
  · simp [Broker.liveCount, Conn.liveCount, Conn.new]
  · simp [Broker.keyCount, Conn.keyCount, Conn.new]
  · rcases List.mem_append.mp hc with hmem | hmem
    · exact h.2.2 c hmem
    · simp only [List.mem_singleton] at hmem
      subst hmem
      simp [Conn.new]

theorem inv_insertQueue (s : Broker) (name : Bytes) (h : s.Inv) :
    (s.insertQueue name).Inv := by
  unfold Broker.insertQueue
  cases alookup name s.names with
  | some qh => exact h
  | none =>
    refine inv_of_counts s _ (fun id => ?_) (fun id => rfl) (fun id => rfl)
      (Nat.le_refl _) (fun c hc => h.2.2 c hc) h
    simp [Broker.qCount, GQueue.idCount]

theorem inv_removeQueue (s : Broker) (name : Bytes) (h : s.Inv) :
    (s.removeQueue name).2.Inv := by
  unfold Broker.removeQueue
  cases alookup name s.names with
  | some qh =>
    exact inv_of_counts s _ (fun id => rfl) (fun id => rfl) (fun id => rfl)
      (Nat.le_refl _) (fun c hc => h.2.2 c hc) h
  | none => exact h

theorem inv_enqueueReq (s : Broker) (ci : Nat) (name object : Bytes)
    (hInv : s.Inv) : (s.dispatch ci (.enqueue name object)).2.Inv := by
  obtain ⟨h1, h2, h3⟩ := hInv
  have hInv' : s.Inv := ⟨h1, h2, h3⟩
  unfold Broker.dispatch
  cases halk : alookup name s.names with
  | none =>
    simp only [halk]
    exact inv_of_counts s _ (fun id => rfl) (fun id => rfl) (fun id => rfl)
      (Nat.le_succ _) (fun c hc => h3 c hc) hInv'
  | some qh =>
    simp only [halk]
    cases henq : (s.getQueue qh).enqueue s.nextId object with
    | error p =>
      obtain ⟨u, d⟩ := p
      simp only [henq]
      exact inv_of_counts s _ (fun id => rfl) (fun id => rfl) (fun id => rfl)
        (Nat.le_succ _) (fun c hc => h3 c hc) hInv'
    | ok q' =>
      simp only [henq]
      by_cases hqh : qh < s.store.length
      · refine ⟨fun id => ?_, fun id hid => ?_, fun c hc => h3 c hc⟩
        · have hsum := qCount_setQueue { s with nextId := s.nextId + 1 } qh q' id hqh
          have hgq : ({ s with nextId := s.nextId + 1 } : Broker).getQueue qh
              = s.getQueue qh := rfl
          rw [hgq] at hsum
          have hq'c := GQueue.enqueue_ok_idCount henq id
          have hq0eq : ({ s with nextId := s.nextId + 1 } : Broker).qCount id
              = s.qCount id := rfl
          rw [hq0eq] at hsum
          have hlc : (({ s with nextId := s.nextId + 1 } : Broker).setQueue qh q').liveCount id
              = s.liveCount id := rfl
          rw [hlc]
          by_cases hid : s.nextId = id
          · have hq0 : s.qCount id = 0 := (hid ▸ (h2 s.nextId (Nat.le_refl _))).1
            have hk0 : s.keyCount id = 0 := (hid ▸ (h2 s.nextId (Nat.le_refl _))).2
            have hl0 : s.liveCount id = 0 := by
              have := liveCount_le_keyCount s id
              omega
            rw [if_pos hid] at hq'c
            omega
          · rw [if_neg hid] at hq'c
            have := h1 id
            omega
        · have hsum := qCount_setQueue { s with nextId := s.nextId + 1 } qh q' id hqh
          have hgq : ({ s with nextId := s.nextId + 1 } : Broker).getQueue qh
              = s.getQueue qh := rfl
          rw [hgq] at hsum
          have hq'c := GQueue.enqueue_ok_idCount henq id
          have hq0eq : ({ s with nextId := s.nextId + 1 } : Broker).qCount id
              = s.qCount id := rfl
          rw [hq0eq] at hsum
          have hkc : (({ s with nextId := s.nextId + 1 } : Broker).setQueue qh q').keyCount id
              = s.keyCount id := rfl
          rw [hkc]
          have hnext : (({ s with nextId := s.nextId + 1 } : Broker).setQueue qh q').nextId
              = s.nextId + 1 := rfl
          rw [hnext] at hid
          have hnid : s.nextId ≠ id := by omega
          rw [if_neg hnid] at hq'c
          have hold := h2 id (by omega)
          constructor
          · omega
          · exact hold.2
      · have hoob : ({ s with nextId := s.nextId + 1 } : Broker).setQueue qh q'
            = { s with nextId := s.nextId + 1 } :=
          setQueue_oob _ qh q' (by simpa using Nat.le_of_not_lt hqh)
        rw [hoob]
        exact inv_of_counts s _ (fun id => rfl) (fun id => rfl) (fun id => rfl)
          (Nat.le_succ _) (fun c hc => h3 c hc) hInv'

theorem liveCount_set_conn (T : Broker) (ci : Nat) (c c' : Conn) (idc : Nat)
    (hci : T.conns.get? ci = some c) :
    Broker.liveCount { T with conns := T.conns.set ci c' } idc + c.liveCount idc
      = T.liveCount idc + c'.liveCount idc := by
  obtain ⟨hlt, hget⟩ := List.get?_eq_some.mp hci
  have hset := sum_map_set (fun x => x.liveCount idc) T.conns ci c' hlt
  rw [hget] at hset
  exact hset

theorem keyCount_set_conn (T : Broker) (ci : Nat) (c c' : Conn) (idc : Nat)
    (hci : T.conns.get? ci = some c) :
    Broker.keyCount { T with conns := T.conns.set ci c' } idc + c.keyCount idc
      = T.keyCount idc + c'.keyCount idc := by
  obtain ⟨hlt, hget⟩ := List.get?_eq_some.mp hci
  have hset := sum_map_set (fun x => x.keyCount idc) T.conns ci c' hlt
  rw [hget] at hset
  exact hset

theorem conn_liveCount_cnt_aupsert_self (c : Conn) (uuid qh : Nat)
    (object : Bytes) (hnd : (c.unconfirmed.map Prod.fst).Nodup) :
    (Conn.liveCount
      { c with unconfirmed := aupsert uuid (Entry.inFlight qh object) c.unconfirmed }
      uuid) = 1 := by
  rw [liveCount_eq_cnt]
  rw [cnt_aupsert_self uuid Entry.live (Entry.inFlight qh object) c.unconfirmed hnd]
  rfl

theorem inv_read_ms_core (s T : Broker) (ci qh uuid : Nat) (object : Bytes)
    (q' : GQueue)
    (hTq : ∀ idc, T.qCount idc = (s.setQueue qh q').qCount idc)
    (hTl : ∀ idc, T.liveCount idc = s.liveCount idc)
    (hTk : ∀ idc, T.keyCount idc = s.keyCount idc)
    (hTn : T.nextId = s.nextId)
    (hTc : T.conns = s.conns)
    (hqh : qh < s.store.length)
    (hdq : (s.getQueue qh).dequeue = some ((uuid, object), q'))
    (hInv : s.Inv) :
    (T.updateConn ci fun c =>
      { c with unconfirmed := aupsert uuid (Entry.inFlight qh object) c.unconfirmed }).Inv := by
  obtain ⟨h1, h2, h3⟩ := hInv
  have hqs : ∀ idc, (s.setQueue qh q').qCount idc + (s.getQueue qh).idCount idc
      = s.qCount idc + q'.idCount idc := fun idc => qCount_setQueue s qh q' idc hqh
  have hitems : ∀ idc, (s.getQueue qh).idCount idc
      = (if uuid = idc then 1 else 0) + q'.idCount idc := fun idc =>
    GQueue.dequeue_some_idCount hdq idc
  have hqle : (s.getQueue qh).idCount uuid ≤ s.qCount uuid :=
    getQueue_idCount_le s qh uuid hqh
  have hq1 : s.qCount uuid = 1 ∧ s.liveCount uuid = 0 := by
    have ha := hitems uuid
    rw [if_pos rfl] at ha
    have hb := h1 uuid
    omega
  have huuidlt : uuid < s.nextId := by
    by_contra hge
    have := (h2 uuid (Nat.le_of_not_lt hge)).1
    omega
  cases hci : T.conns.get? ci with
  | none =>
    rw [updateConn_none T ci _ hci]
    refine ⟨fun idc => ?_, fun idc hid => ?_, ?_⟩
    · rw [hTq idc, hTl idc]
      have h4 := hqs idc
      have h5 := hitems idc
      have h6 := h1 idc
      by_cases hu : uuid = idc
      · rw [if_pos hu] at h5
        subst hu
        omega
      · rw [if_neg hu] at h5
        omega
    · rw [hTn] at hid
      rw [hTq idc, hTk idc]
      have h4 := hqs idc
      have h5 := hitems idc
      have h7 := h2 idc hid
      have hne : uuid ≠ idc := by omega
      rw [if_neg hne] at h5
      omega
    · rw [hTc]
      exact h3
  | some c =>
    have hmem : c ∈ s.conns := hTc ▸ List.get?_mem hci
    have hnd : (c.unconfirmed.map Prod.fst).Nodup := h3 c hmem
    have hclive : c.liveCount uuid = 0 := by
      have hle := conn_count_le s ci c (fun x => x.liveCount uuid) (hTc ▸ hci)
      simp only [] at hle
      have hz := hq1.2
      unfold Broker.liveCount at hz
      omega
    have hSdef : (T.updateConn ci fun c' =>
        { c' with unconfirmed := aupsert uuid (Entry.inFlight qh object) c'.unconfirmed })
        = { T with conns := T.conns.set ci ({ c with unconfirmed := aupsert uuid (Entry.inFlight qh object) c.unconfirmed }) } := by
      unfold Broker.updateConn
      rw [hci]
    rw [hSdef]
    refine ⟨fun idc => ?_, fun idc hid => ?_, ?_⟩
    · have hA := liveCount_set_conn T ci c
        { c with unconfirmed := aupsert uuid (Entry.inFlight qh object) c.unconfirmed }
        idc hci
      have hq_N : Broker.qCount { T with conns := T.conns.set ci ({ c with unconfirmed := aupsert uuid (Entry.inFlight qh object) c.unconfirmed }) } idc
          = (s.setQueue qh q').qCount idc := hTq idc
      rw [hq_N]
      have h4 := hqs idc
      have h5 := hitems idc
      have h6 := h1 idc
      have hTl' := hTl idc
      by_cases hu : uuid = idc
      · subst hu
        have hgc : Conn.liveCount
            { c with unconfirmed := aupsert uuid (Entry.inFlight qh object) c.unconfirmed }
            uuid = 1 := conn_liveCount_cnt_aupsert_self c uuid qh object hnd
        rw [if_pos rfl] at h5
        rw [hgc] at hA
        omega
      · have hgc : Conn.liveCount
            { c with unconfirmed := aupsert uuid (Entry.inFlight qh object) c.unconfirmed }
            idc = c.liveCount idc := by
          rw [liveCount_eq_cnt, liveCount_eq_cnt]
          exact cnt_aupsert_ne uuid idc Entry.live (Entry.inFlight qh object)
            c.unconfirmed (fun hh => hu hh.symm)
        rw [if_neg hu] at h5
        rw [hgc] at hA
        omega
    · rw [hTn] at hid
      have hne : uuid ≠ idc := by omega
      have hB := keyCount_set_conn T ci c
        ({ c with unconfirmed := aupsert uuid (Entry.inFlight qh object) c.unconfirmed })
        idc hci
      have hgc : Conn.keyCount
          { c with unconfirmed := aupsert uuid (Entry.inFlight qh object) c.unconfirmed }
          idc = c.keyCount idc := by
        rw [keyCount_eq_cnt, keyCount_eq_cnt]
        exact cnt_aupsert_ne uuid idc (fun _ => true) (Entry.inFlight qh object)
          c.unconfirmed (fun hh => hne hh.symm)
      rw [hgc] at hB
      have hq_N : Broker.qCount { T with conns := T.conns.set ci ({ c with unconfirmed := aupsert uuid (Entry.inFlight qh object) c.unconfirmed }) } idc
          = (s.setQueue qh q').qCount idc := hTq idc
      rw [hq_N]
      have h4 := hqs idc
      have h5 := hitems idc
      rw [if_neg hne] at h5
      have h7 := h2 idc hid
      have hTk' := hTk idc
      omega
    · intro c' hc'
      have hc'' := List.mem_or_eq_of_mem_set hc'
      rcases hc'' with hcm | hce
      · exact h3 c' (hTc ▸ hcm)
      · subst hce
        exact nodup_keys_aupsert uuid (Entry.inFlight qh object) c.unconfirmed hnd

theorem inv_read_ms (s : Broker) (ci : Nat) (name : Bytes) (timeout : Nat)
    (hInv : s.Inv) : (s.read_ms ci name timeout).2.Inv := by
  unfold Broker.read_ms
  cases halk : alookup name s.names with
  | none => exact hInv
  | some qh =>
    simp only [halk]
    cases hdq : (s.getQueue qh).dequeue with
    | none => simp only [hdq]; exact hInv
    | some pr =>
      obtain ⟨⟨uuid, object⟩, q'⟩ := pr
      simp only [hdq]
      have hqh : qh < s.store.length := by
        by_contra hle
        rw [dequeue_oob_none s qh (Nat.le_of_not_lt hle)] at hdq
        exact absurd hdq (by simp)
      exact inv_read_ms_core s
        { s.setQueue qh q' with timers := s.timers ++ [(ci, uuid, timeout)] }
        ci qh uuid object q'
        (fun idc => rfl) (fun idc => rfl) (fun idc => rfl) rfl rfl hqh hdq hInv

theorem inv_dropEntry (s : Broker) (ci uuid : Nat) (hInv : s.Inv) :
    (s.dropEntry ci uuid).Inv := by
  obtain ⟨h1, h2, h3⟩ := hInv
  unfold Broker.dropEntry Broker.updateConn
  cases hci : s.conns.get? ci with
  | none => exact ⟨h1, h2, h3⟩
  | some c =>
    simp only [hci]
    have hnd := h3 c (List.get?_mem hci)
    refine ⟨fun idc => ?_, fun idc hid => ?_, ?_⟩
    · have hA := liveCount_set_conn s ci c
        ({ c with unconfirmed := aremove uuid c.unconfirmed }) idc hci
      have hq : Broker.qCount { s with conns := s.conns.set ci ({ c with unconfirmed := aremove uuid c.unconfirmed }) } idc = s.qCount idc := rfl
      rw [hq]
      have h6 := h1 idc
      by_cases hu : idc = uuid
      · subst hu
        have hgc : Conn.liveCount
            { c with unconfirmed := aremove idc c.unconfirmed } idc = 0 := by
          rw [liveCount_eq_cnt]
          exact cnt_aremove_self idc Entry.live c.unconfirmed hnd
        rw [hgc] at hA
        omega
      · have hgc : Conn.liveCount
            { c with unconfirmed := aremove uuid c.unconfirmed } idc
            = c.liveCount idc := by
          rw [liveCount_eq_cnt, liveCount_eq_cnt]
          exact cnt_aremove_ne uuid idc Entry.live c.unconfirmed hu
        rw [hgc] at hA
        omega
    · have hB := keyCount_set_conn s ci c
        ({ c with unconfirmed := aremove uuid c.unconfirmed }) idc hci
      have hq : Broker.qCount { s with conns := s.conns.set ci ({ c with unconfirmed := aremove uuid c.unconfirmed }) } idc = s.qCount idc := rfl
      have hn : Broker.nextId { s with conns := s.conns.set ci ({ c with unconfirmed := aremove uuid c.unconfirmed }) } = s.nextId := rfl
      rw [hn] at hid
      have h7 := h2 idc hid
      rw [hq]
      by_cases hu : idc = uuid
      · subst hu
        have hgc : Conn.keyCount
            { c with unconfirmed := aremove idc c.unconfirmed } idc = 0 := by
          rw [keyCount_eq_cnt]
          exact cnt_aremove_self idc (fun _ => true) c.unconfirmed hnd
        rw [hgc] at hB
        have hck := conn_liveCount_le_keyCount c idc
        omega
      · have hgc : Conn.keyCount
            { c with unconfirmed := aremove uuid c.unconfirmed } idc
            = c.keyCount idc := by
          rw [keyCount_eq_cnt, keyCount_eq_cnt]
          exact cnt_aremove_ne uuid idc (fun _ => true) c.unconfirmed hu
        rw [hgc] at hB
        omega
    · intro c' hc'
      rcases List.mem_or_eq_of_mem_set hc' with hcm | hce
      · exact h3 c' hcm
      · subst hce
        exact nodup_keys_aremove uuid c.unconfirmed hnd

theorem inv_confirmReq (s : Broker) (ci uuid : Nat) (hInv : s.Inv) :
    (s.confirm ci uuid).2.Inv := by
  obtain ⟨h1, h2, h3⟩ := hInv
  have hInv' : s.Inv := ⟨h1, h2, h3⟩
  unfold Broker.confirm
  split
  · exact hInv'
  next c hci =>
    split
    · exact hInv'
    next hlk => exact inv_dropEntry s ci uuid hInv'
    next hlk => exact inv_dropEntry s ci uuid hInv'
    next qh object hlk =>
      have hmem : c ∈ s.conns := List.get?_mem hci
      have hnd := h3 c hmem
      have hckey1 : c.keyCount uuid = 1 := by
        rw [keyCount_eq_cnt,
          cnt_alookup_some uuid (fun _ => true) c.unconfirmed _ hlk hnd]
        rfl
      have hkge : 1 ≤ s.keyCount uuid := by
        have hle := conn_count_le s ci c (fun x => x.keyCount uuid) hci
        simp only [] at hle
        have hsk : s.keyCount uuid
            = (s.conns.map fun x => x.keyCount uuid).sum := rfl
        omega
      have huuidlt : uuid < s.nextId := by
        by_contra hge
        have := (h2 uuid (Nat.le_of_not_lt hge)).2
        omega
      have hDdef : s.dropEntry ci uuid
          = { s with conns := s.conns.set ci ({ c with unconfirmed := aremove uuid c.unconfirmed }) } := by
        unfold Broker.dropEntry Broker.updateConn
        rw [hci]
      · have hclive1 : c.liveCount uuid = 1 := by
          rw [liveCount_eq_cnt,
            cnt_alookup_some uuid Entry.live c.unconfirmed _ hlk hnd]
          simp [Entry.live]
        have hlive1 : 1 ≤ s.liveCount uuid := by
          have hle := conn_count_le s ci c (fun x => x.liveCount uuid) hci
          simp only [] at hle
          have hsl : s.liveCount uuid
              = (s.conns.map fun x => x.liveCount uuid).sum := rfl
          omega
        have hq0 : s.qCount uuid = 0 ∧ s.liveCount uuid = 1 := by
          have := h1 uuid
          omega
        have hDq : ∀ idc, (s.dropEntry ci uuid).qCount idc = s.qCount idc := by
          intro idc
          rw [hDdef]
          rfl
        have hDn : (s.dropEntry ci uuid).nextId = s.nextId := by
          rw [hDdef]
        have hDstore : (s.dropEntry ci uuid).store = s.store := by
          rw [hDdef]
        have hDget : (s.dropEntry ci uuid).getQueue qh = s.getQueue qh := by
          rw [hDdef]
          rfl
        have hDl : ∀ idc, (s.dropEntry ci uuid).liveCount idc + c.liveCount idc
            = s.liveCount idc
              + Conn.liveCount ({ c with unconfirmed := aremove uuid c.unconfirmed }) idc := by
          intro idc
          rw [hDdef]
          exact liveCount_set_conn s ci c _ idc hci
        have hDk : ∀ idc, (s.dropEntry ci uuid).keyCount idc + c.keyCount idc
            = s.keyCount idc
              + Conn.keyCount ({ c with unconfirmed := aremove uuid c.unconfirmed }) idc := by
          intro idc
          rw [hDdef]
          exact keyCount_set_conn s ci c _ idc hci
        have hDinv : (s.dropEntry ci uuid).Inv := inv_dropEntry s ci uuid hInv'
        split
        next q' hrq =>
          show ((s.dropEntry ci uuid).setQueue qh q').Inv
          by_cases hqh : qh < s.store.length
          · have hqhD : qh < (s.dropEntry ci uuid).store.length := by
              rw [hDstore]
              exact hqh
            obtain ⟨hD1, hD2, hD3⟩ := hDinv
            refine ⟨fun idc => ?_, fun idc hid => ?_, ?_⟩
            · have hsum := qCount_setQueue (s.dropEntry ci uuid) qh q' idc hqhD
              have hqid := GQueue.requeue_ok_idCount hrq idc
              have hsl : ((s.dropEntry ci uuid).setQueue qh q').liveCount idc
                  = (s.dropEntry ci uuid).liveCount idc := rfl
              rw [hsl]
              have hDqi := hDq idc
              have hDli := hDl idc
              by_cases hu : uuid = idc
              · subst hu
                rw [if_pos rfl] at hqid
                have hgc : Conn.liveCount
                    { c with unconfirmed := aremove uuid c.unconfirmed } uuid = 0 := by
                  rw [liveCount_eq_cnt]
                  exact cnt_aremove_self uuid Entry.live c.unconfirmed hnd
                rw [hgc] at hDli
                omega
              · rw [if_neg hu] at hqid
                have hgc : Conn.liveCount
                    { c with unconfirmed := aremove uuid c.unconfirmed } idc
                    = c.liveCount idc := by
                  rw [liveCount_eq_cnt, liveCount_eq_cnt]
                  exact cnt_aremove_ne uuid idc Entry.live c.unconfirmed
                    (fun hh => hu hh.symm)
                rw [hgc] at hDli
                have h6 := h1 idc
                omega
            · have hnn : ((s.dropEntry ci uuid).setQueue qh q').nextId
                  = (s.dropEntry ci uuid).nextId := rfl
              rw [hnn] at hid
              have hsum := qCount_setQueue (s.dropEntry ci uuid) qh q' idc hqhD
              have hqid := GQueue.requeue_ok_idCount hrq idc
              have hsk : ((s.dropEntry ci uuid).setQueue qh q').keyCount idc
                  = (s.dropEntry ci uuid).keyCount idc := rfl
              rw [hsk]
              have hD2i := hD2 idc hid
              have hne : uuid ≠ idc := by
                rw [hDn] at hid
                omega
              rw [if_neg hne] at hqid
              omega
            · intro c' hc'
              exact hD3 c' hc'
          · have hoob : (s.dropEntry ci uuid).setQueue qh q' = s.dropEntry ci uuid := by
              apply setQueue_oob
              rw [hDstore]
              omega
            rw [hoob]
            exact hDinv
        next u d hrq => exact hDinv

theorem inv_updateConn_aset_requeuedOK (s : Broker) (ci uuid : Nat)
    (hInv : s.Inv) :
    (s.updateConn ci fun c' =>
      { c' with unconfirmed := aset uuid Entry.requeuedOK c'.unconfirmed }).Inv := by
  obtain ⟨h1, h2, h3⟩ := hInv
  unfold Broker.updateConn
  cases hci : s.conns.get? ci with
  | none => exact ⟨h1, h2, h3⟩
  | some c =>
    simp only [hci]
    have hnd := h3 c (List.get?_mem hci)
    have hkeys : ∀ idc, Conn.keyCount
        { c with unconfirmed := aset uuid Entry.requeuedOK c.unconfirmed } idc
        = c.keyCount idc := by
      intro idc
      rw [keyCount_eq_cnt, keyCount_eq_cnt]
      by_cases hu : idc = uuid
      · subst hu
        cases hlk : alookup idc c.unconfirmed with
        | none => rw [aset_of_alookup_none idc Entry.requeuedOK c.unconfirmed hlk]
        | some e =>
          rw [cnt_aset_self idc (fun _ => true) Entry.requeuedOK e c.unconfirmed hlk hnd,
            cnt_alookup_some idc (fun _ => true) c.unconfirmed e hlk hnd]
      · exact cnt_aset_ne uuid idc (fun _ => true) Entry.requeuedOK c.unconfirmed hu
    have hlives : ∀ idc, Conn.liveCount
        { c with unconfirmed := aset uuid Entry.requeuedOK c.unconfirmed } idc
        ≤ c.liveCount idc := by
      intro idc
      rw [liveCount_eq_cnt, liveCount_eq_cnt]
      by_cases hu : idc = uuid
      · subst hu
        cases hlk : alookup idc c.unconfirmed with
        | none =>
          rw [aset_of_alookup_none idc Entry.requeuedOK c.unconfirmed hlk]
        | some e =>
          rw [cnt_aset_self idc Entry.live Entry.requeuedOK e c.unconfirmed hlk hnd]
          simp [Entry.live]
      · rw [cnt_aset_ne uuid idc Entry.live Entry.requeuedOK c.unconfirmed hu]
    refine ⟨fun idc => ?_, fun idc hid => ?_, ?_⟩
    · have hA := liveCount_set_conn s ci c
        ({ c with unconfirmed := aset uuid Entry.requeuedOK c.unconfirmed }) idc hci
      have hq : Broker.qCount { s with conns := s.conns.set ci ({ c with unconfirmed := aset uuid Entry.requeuedOK c.unconfirmed }) } idc = s.qCount idc := rfl
      rw [hq]
      have h6 := h1 idc
      have h7 := hlives idc
      omega
    · have hB := keyCount_set_conn s ci c
        ({ c with unconfirmed := aset uuid Entry.requeuedOK c.unconfirmed }) idc hci
      have hq : Broker.qCount { s with conns := s.conns.set ci ({ c with unconfirmed := aset uuid Entry.requeuedOK c.unconfirmed }) } idc = s.qCount idc := rfl
      have hn : Broker.nextId { s with conns := s.conns.set ci ({ c with unconfirmed := aset uuid Entry.requeuedOK c.unconfirmed }) } = s.nextId := rfl
      rw [hn] at hid
      rw [hq]
      have h7 := h2 idc hid
      have h8 := hkeys idc
      omega
    · intro c' hc'
      rcases List.mem_or_eq_of_mem_set hc' with hcm | hce
      · exact h3 c' hcm
      · subst hce
        have := keys_aset uuid Entry.requeuedOK c.unconfirmed
        simp only [List.map] at this ⊢
        rw [show (List.map Prod.fst (aset uuid Entry.requeuedOK c.unconfirmed))
            = List.map Prod.fst c.unconfirmed from keys_aset uuid Entry.requeuedOK c.unconfirmed]
        exact hnd

theorem inv_fireTimerGo (s : Broker) (ci uuid : Nat) (hInv : s.Inv) :
    (Broker.fireTimerGo s ci uuid).Inv := by
  obtain ⟨h1, h2, h3⟩ := hInv
  have hInv' : s.Inv := ⟨h1, h2, h3⟩
  unfold Broker.fireTimerGo
  split
  · exact hInv'
  next c hci =>
    split
    next qh object hlk =>
      have hmem : c ∈ s.conns := List.get?_mem hci
      have hnd := h3 c hmem
      have hckey1 : c.keyCount uuid = 1 := by
        rw [keyCount_eq_cnt,
          cnt_alookup_some uuid (fun _ => true) c.unconfirmed _ hlk hnd]
        rfl
      have hkge : 1 ≤ s.keyCount uuid := by
        have hle := conn_count_le s ci c (fun x => x.keyCount uuid) hci
        simp only [] at hle
        have hsk : s.keyCount uuid
            = (s.conns.map fun x => x.keyCount uuid).sum := rfl
        omega
      have huuidlt : uuid < s.nextId := by
        by_contra hge
        have := (h2 uuid (Nat.le_of_not_lt hge)).2
        omega
      have hclive1 : c.liveCount uuid = 1 := by
        rw [liveCount_eq_cnt,
          cnt_alookup_some uuid Entry.live c.unconfirmed _ hlk hnd]
        simp [Entry.live]
      have hlive1 : 1 ≤ s.liveCount uuid := by
        have hle := conn_count_le s ci c (fun x => x.liveCount uuid) hci
        simp only [] at hle
        have hsl : s.liveCount uuid
            = (s.conns.map fun x => x.liveCount uuid).sum := rfl
        omega
      have hq0 : s.qCount uuid = 0 ∧ s.liveCount uuid = 1 := by
        have := h1 uuid
        omega
      split
      next q' hrq =>
        show ((s.setQueue qh q').updateConn ci fun c' =>
          { c' with unconfirmed := aset uuid Entry.requeuedOK c'.unconfirmed }).Inv
        by_cases hqh : qh < s.store.length
        · have hciQ : (s.setQueue qh q').conns.get? ci = some c := hci
          have hSdef : ((s.setQueue qh q').updateConn ci fun c' =>
              { c' with unconfirmed := aset uuid Entry.requeuedOK c'.unconfirmed })
              = Broker.mk (s.setQueue qh q').qcap (s.setQueue qh q').store (s.setQueue qh q').names ((s.setQueue qh q').conns.set ci ({ c with unconfirmed := aset uuid Entry.requeuedOK c.unconfirmed })) (s.setQueue qh q').timers (s.setQueue qh q').nextId := by
            unfold Broker.updateConn
            rw [hciQ]
          rw [hSdef]
          have hsum := fun idc => qCount_setQueue s qh q' idc hqh
          have hqid := fun idc => GQueue.requeue_ok_idCount hrq idc
          refine ⟨fun idc => ?_, fun idc hid => ?_, ?_⟩
          · have hA := liveCount_set_conn (s.setQueue qh q') ci c
              ({ c with unconfirmed := aset uuid Entry.requeuedOK c.unconfirmed }) idc hciQ
            have hq_N : Broker.qCount (Broker.mk (s.setQueue qh q').qcap (s.setQueue qh q').store (s.setQueue qh q').names ((s.setQueue qh q').conns.set ci ({ c with unconfirmed := aset uuid Entry.requeuedOK c.unconfirmed })) (s.setQueue qh q').timers (s.setQueue qh q').nextId) idc = (s.setQueue qh q').qCount idc := rfl
            have hl_mid : (s.setQueue qh q').liveCount idc = s.liveCount idc := rfl
            rw [hq_N]
            rw [hl_mid] at hA
            have h4 := hsum idc
            have h5 := hqid idc
            by_cases hu : uuid = idc
            · subst hu
              rw [if_pos rfl] at h5
              have hgc : Conn.liveCount
                  { c with unconfirmed := aset uuid Entry.requeuedOK c.unconfirmed } uuid = 0 := by
                rw [liveCount_eq_cnt,
                  cnt_aset_self uuid Entry.live Entry.requeuedOK _ c.unconfirmed hlk hnd]
                rfl
              rw [hgc] at hA
              omega
            · rw [if_neg hu] at h5
              have hgc : Conn.liveCount
                  { c with unconfirmed := aset uuid Entry.requeuedOK c.unconfirmed } idc
                  = c.liveCount idc := by
                rw [liveCount_eq_cnt, liveCount_eq_cnt]
                exact cnt_aset_ne uuid idc Entry.live Entry.requeuedOK c.unconfirmed
                  (fun hh => hu hh.symm)
              rw [hgc] at hA
              have h6 := h1 idc
              omega
          · have hB := keyCount_set_conn (s.setQueue qh q') ci c
              ({ c with unconfirmed := aset uuid Entry.requeuedOK c.unconfirmed }) idc hciQ
            have hq_N : Broker.qCount (Broker.mk (s.setQueue qh q').qcap (s.setQueue qh q').store (s.setQueue qh q').names ((s.setQueue qh q').conns.set ci ({ c with unconfirmed := aset uuid Entry.requeuedOK c.unconfirmed })) (s.setQueue qh q').timers (s.setQueue qh q').nextId) idc = (s.setQueue qh q').qCount idc := rfl
            have hn_N : Broker.nextId (Broker.mk (s.setQueue qh q').qcap (s.setQueue qh q').store (s.setQueue qh q').names ((s.setQueue qh q').conns.set ci ({ c with unconfirmed := aset uuid Entry.requeuedOK c.unconfirmed })) (s.setQueue qh q').timers (s.setQueue qh q').nextId) = s.nextId := rfl
            have hk_mid : (s.setQueue qh q').keyCount idc = s.keyCount idc := rfl
            rw [hn_N] at hid
            rw [hq_N]
            rw [hk_mid] at hB
            have hne : uuid ≠ idc := by omega
            have h4 := hsum idc
            have h5 := hqid idc
            rw [if_neg hne] at h5
            have h7 := h2 idc hid
            have hgc : Conn.keyCount
                { c with unconfirmed := aset uuid Entry.requeuedOK c.unconfirmed } idc
                = c.keyCount idc := by
              rw [keyCount_eq_cnt, keyCount_eq_cnt]
              exact cnt_aset_ne uuid idc (fun _ => true) Entry.requeuedOK c.unconfirmed
                (fun hh => hne hh.symm)
            rw [hgc] at hB
            omega
          · intro c' hc'
            rcases List.mem_or_eq_of_mem_set hc' with hcm | hce
            · exact h3 c' hcm
            · subst hce
              rw [show (List.map Prod.fst (aset uuid Entry.requeuedOK c.unconfirmed))
                  = List.map Prod.fst c.unconfirmed from keys_aset uuid Entry.requeuedOK c.unconfirmed]
              exact hnd
        · rw [setQueue_oob s qh q' (Nat.le_of_not_lt hqh)]
          exact inv_updateConn_aset_requeuedOK s ci uuid hInv'
      next p hrq =>
        show (s.updateConn ci fun c' =>
          { c' with unconfirmed := aset uuid (Entry.requeueFailed qh object) c'.unconfirmed }).Inv
        have hSdef : (s.updateConn ci fun c' =>
            { c' with unconfirmed := aset uuid (Entry.requeueFailed qh object) c'.unconfirmed })
            = { s with conns := s.conns.set ci ({ c with unconfirmed := aset uuid (Entry.requeueFailed qh object) c.unconfirmed }) } := by
          unfold Broker.updateConn
          rw [hci]
        rw [hSdef]
        refine ⟨fun idc => ?_, fun idc hid => ?_, ?_⟩
        · have hA := liveCount_set_conn s ci c
            ({ c with unconfirmed := aset uuid (Entry.requeueFailed qh object) c.unconfirmed }) idc hci
          have hq_N : Broker.qCount { s with conns := s.conns.set ci ({ c with unconfirmed := aset uuid (Entry.requeueFailed qh object) c.unconfirmed }) } idc = s.qCount idc := rfl
          rw [hq_N]
          have h6 := h1 idc
          by_cases hu : uuid = idc
          · subst hu
            have hgc : Conn.liveCount
                { c with unconfirmed := aset uuid (Entry.requeueFailed qh object) c.unconfirmed } uuid = 1 := by
              rw [liveCount_eq_cnt,
                cnt_aset_self uuid Entry.live (Entry.requeueFailed qh object) _ c.unconfirmed hlk hnd]
              rfl
            rw [hgc] at hA
            omega
          · have hgc : Conn.liveCount
                { c with unconfirmed := aset uuid (Entry.requeueFailed qh object) c.unconfirmed } idc
                = c.liveCount idc := by
              rw [liveCount_eq_cnt, liveCount_eq_cnt]
              exact cnt_aset_ne uuid idc Entry.live (Entry.requeueFailed qh object)
                c.unconfirmed (fun hh => hu hh.symm)
            rw [hgc] at hA
            omega
        · have hB := keyCount_set_conn s ci c
            ({ c with unconfirmed := aset uuid (Entry.requeueFailed qh object) c.unconfirmed }) idc hci
          have hq_N : Broker.qCount { s with conns := s.conns.set ci ({ c with unconfirmed := aset uuid (Entry.requeueFailed qh object) c.unconfirmed }) } idc = s.qCount idc := rfl
          have hn_N : Broker.nextId { s with conns := s.conns.set ci ({ c with unconfirmed := aset uuid (Entry.requeueFailed qh object) c.unconfirmed }) } = s.nextId := rfl
          rw [hn_N] at hid
          rw [hq_N]
          have hne : uuid ≠ idc := by omega
          have h7 := h2 idc hid
          have hgc : Conn.keyCount
              { c with unconfirmed := aset uuid (Entry.requeueFailed qh object) c.unconfirmed } idc
              = c.keyCount idc := by
            rw [keyCount_eq_cnt, keyCount_eq_cnt]
            exact cnt_aset_ne uuid idc (fun _ => true) (Entry.requeueFailed qh object)
              c.unconfirmed (fun hh => hne hh.symm)
          rw [hgc] at hB
          omega
        · intro c' hc'
          rcases List.mem_or_eq_of_mem_set hc' with hcm | hce
          · exact h3 c' hcm
          · subst hce
            rw [show (List.map Prod.fst (aset uuid (Entry.requeueFailed qh object) c.unconfirmed))
                = List.map Prod.fst c.unconfirmed from keys_aset uuid (Entry.requeueFailed qh object) c.unconfirmed]
            exact hnd
    next hne => exact hInv'

theorem inv_fireTimer (s : Broker) (ci uuid : Nat) (hInv : s.Inv) :
    (s.fireTimer ci uuid).Inv := by
  unfold Broker.fireTimer
  split
  · exact inv_fireTimerGo _ ci uuid hInv
  · exact hInv

theorem inv_dispatch (s : Broker) (ci : Nat) (m : ClientMessage) (h : s.Inv) :
    (s.dispatch ci m).2.Inv := by
  cases m with
  | createQueue name => exact inv_insertQueue s name h
  | deleteQueue name =>
    have hrr := inv_removeQueue s name h
    have hsnd : (s.dispatch ci (.deleteQueue name)).2 = (s.removeQueue name).2 := by
      show (match s.removeQueue name with
        | (some _, s') => (ServerMessage.queueDeleted, s')
        | (none, s') => (ServerMessage.noSuchEntity, s')).2 = (s.removeQueue name).2
      rcases s.removeQueue name with ⟨_ | qh, s'⟩
      · rfl
      · rfl
    rw [hsnd]
    exact hrr
  | enqueue name object => exact inv_enqueueReq s ci name object h
  | read name timeout => exact inv_read_ms s ci name timeout h
  | confirm uuid => exact inv_confirmReq s ci uuid h

theorem inv_exec (s : Broker) (e : Event) (h : s.Inv) : (s.exec e).Inv := by
  cases e with
  | newConn => exact inv_newConn s h
  | request ci m => exact inv_dispatch s ci m h
  | timer ci uuid => exact inv_fireTimer s ci uuid h

theorem inv_run (s : Broker) (es : List Event) (h : s.Inv) : (s.run es).Inv := by
  induction es generalizing s with
  | nil => exact h
  | cons e rest ih => exact ih _ (inv_exec s e h)

theorem inv_init (qcap : Option Nat) : (Broker.init qcap).Inv := by
  refine ⟨fun id => ?_, fun id hid => ⟨rfl, rfl⟩, ?_⟩
  · show 0 + 0 ≤ 1
    omega
  · intro c hc
    exact absurd hc (by simp [Broker.init])

theorem inv_reachable (s : Broker) (h : s.Reachable) : s.Inv := by
  obtain ⟨qcap, es, rfl⟩ := h
  exact inv_run _ es (inv_init qcap)

theorem get?_set_self {α : Type} (l : List α) (i : Nat) (a : α)
    (h : i < l.length) : (l.set i a).get? i = some a := by
  induction l generalizing i with
  | nil => exact absurd h (by simp)
  | cons x xs ih =>
    cases i with
    | zero => rfl
    | succ i =>
      have h' : i < xs.length := by simpa using h
      exact ih i h'

theorem conn_keyCount_aset (c : Conn) (uuid : Nat) (v : Entry) (id : Nat)
    (hnd : (c.unconfirmed.map Prod.fst).Nodup) :
    Conn.keyCount { c with unconfirmed := aset uuid v c.unconfirmed } id
      = c.keyCount id := by
  rw [keyCount_eq_cnt, keyCount_eq_cnt]
  by_cases hu : id = uuid
  · subst hu
    cases hlk : alookup id c.unconfirmed with
    | none => rw [aset_of_alookup_none id v c.unconfirmed hlk]
    | some e =>
      rw [cnt_aset_self id (fun _ => true) v e c.unconfirmed hlk hnd,
        cnt_alookup_some id (fun _ => true) c.unconfirmed e hlk hnd]
  · exact cnt_aset_ne uuid id (fun _ => true) v c.unconfirmed hu

theorem keyCount_fireTimer (s : Broker) (ci uuid id : Nat) (hInv : s.Inv) :
    (s.fireTimer ci uuid).keyCount id = s.keyCount id := by
  obtain ⟨h1, h2, h3⟩ := hInv
  unfold Broker.fireTimer
  split
  · unfold Broker.fireTimerGo
    split
    · rfl
    next c hci =>
      have hmem : c ∈ s.conns := List.get?_mem hci
      have hnd := h3 c hmem
      split
      next qh object hlk =>
        split
        next q' hrq =>
          show Broker.keyCount
            ((({ s with timers := s.timers.eraseP fun t => t.1 == ci && t.2.1 == uuid } : Broker).setQueue qh q').updateConn ci fun c' =>
              { c' with unconfirmed := aset uuid Entry.requeuedOK c'.unconfirmed }) id = s.keyCount id
          have hciQ : (({ s with timers := s.timers.eraseP fun t => t.1 == ci && t.2.1 == uuid } : Broker).setQueue qh q').conns.get? ci = some c := hci
          have hSdef : ((({ s with timers := s.timers.eraseP fun t => t.1 == ci && t.2.1 == uuid } : Broker).setQueue qh q').updateConn ci fun c' =>
              { c' with unconfirmed := aset uuid Entry.requeuedOK c'.unconfirmed })
              = Broker.mk (({ s with timers := s.timers.eraseP fun t => t.1 == ci && t.2.1 == uuid } : Broker).setQueue qh q').qcap (({ s with timers := s.timers.eraseP fun t => t.1 == ci && t.2.1 == uuid } : Broker).setQueue qh q').store (({ s with timers := s.timers.eraseP fun t => t.1 == ci && t.2.1 == uuid } : Broker).setQueue qh q').names ((({ s with timers := s.timers.eraseP fun t => t.1 == ci && t.2.1 == uuid } : Broker).setQueue qh q').conns.set ci ({ c with unconfirmed := aset uuid Entry.requeuedOK c.unconfirmed })) (({ s with timers := s.timers.eraseP fun t => t.1 == ci && t.2.1 == uuid } : Broker).setQueue qh q').timers (({ s with timers := s.timers.eraseP fun t => t.1 == ci && t.2.1 == uuid } : Broker).setQueue qh q').nextId := by
            unfold Broker.updateConn
            rw [hciQ]
          rw [hSdef]
          have hB := keyCount_set_conn (({ s with timers := s.timers.eraseP fun t => t.1 == ci && t.2.1 == uuid } : Broker).setQueue qh q') ci c
            ({ c with unconfirmed := aset uuid Entry.requeuedOK c.unconfirmed }) id hciQ
          have hmid : (({ s with timers := s.timers.eraseP fun t => t.1 == ci && t.2.1 == uuid } : Broker).setQueue qh q').keyCount id = s.keyCount id := rfl
          rw [hmid] at hB
          rw [conn_keyCount_aset c uuid Entry.requeuedOK id hnd] at hB
          omega
        next p hrq =>
          show Broker.keyCount
            (({ s with timers := s.timers.eraseP fun t => t.1 == ci && t.2.1 == uuid } : Broker).updateConn ci fun c' =>
              { c' with unconfirmed := aset uuid (Entry.requeueFailed qh object) c'.unconfirmed }) id = s.keyCount id
          have hSdef : (({ s with timers := s.timers.eraseP fun t => t.1 == ci && t.2.1 == uuid } : Broker).updateConn ci fun c' =>
              { c' with unconfirmed := aset uuid (Entry.requeueFailed qh object) c'.unconfirmed })
              = { s with
                  timers := s.timers.eraseP fun t => t.1 == ci && t.2.1 == uuid
                  conns := s.conns.set ci ({ c with unconfirmed := aset uuid (Entry.requeueFailed qh object) c.unconfirmed }) } := by
            unfold Broker.updateConn
            rw [hci]
          rw [hSdef]
          have hB := keyCount_set_conn s ci c
            ({ c with unconfirmed := aset uuid (Entry.requeueFailed qh object) c.unconfirmed }) id hci
          rw [conn_keyCount_aset c uuid (Entry.requeueFailed qh object) id hnd] at hB
          have hEq : Broker.keyCount { s with
              timers := s.timers.eraseP fun t => t.1 == ci && t.2.1 == uuid
              conns := s.conns.set ci ({ c with unconfirmed := aset uuid (Entry.requeueFailed qh object) c.unconfirmed }) } id
              = Broker.keyCount { s with conns := s.conns.set ci ({ c with unconfirmed := aset uuid (Entry.requeueFailed qh object) c.unconfirmed }) } id := rfl
          rw [hEq]
          omega
      next hno => rfl
  · rfl

theorem confirm_removes_entry (s : Broker) (ci uuid : Nat) (c : Conn) (e : Entry)
    (hInv : s.Inv)
    (hci : s.conns.get? ci = some c)
    (hlk : alookup uuid c.unconfirmed = some e) :
    ∃ c', (s.confirm ci uuid).2.conns.get? ci = some c'
      ∧ alookup uuid c'.unconfirmed = none := by
  obtain ⟨h1, h2, h3⟩ := hInv
  have hnd := h3 c (List.get?_mem hci)
  have hnone : alookup uuid (aremove uuid c.unconfirmed) = none :=
    alookup_eq_none_of_not_mem _ _ (not_mem_keys_aremove uuid c.unconfirmed hnd)
  obtain ⟨hlt, -⟩ := List.get?_eq_some.mp hci
  have hDconns : (s.dropEntry ci uuid).conns.get? ci
      = some ({ c with unconfirmed := aremove uuid c.unconfirmed }) := by
    unfold Broker.dropEntry Broker.updateConn
    rw [hci]
    exact get?_set_self s.conns ci _ hlt
  unfold Broker.confirm
  split
  next hc0 =>
    rw [hc0] at hci
    exact absurd hci (by simp)
  next c2 hc2 =>
    have hcc : c2 = c := by
      rw [hc2] at hci
      injection hci
    have hlk2 : alookup uuid c2.unconfirmed = some e := by
      rw [hcc]
      exact hlk
    split
    next hlk0 =>
      rw [hlk0] at hlk2
      exact absurd hlk2 (by simp)
    next hlkF =>
      exact ⟨{ c with unconfirmed := aremove uuid c.unconfirmed }, hDconns, hnone⟩
    next hlkR =>
      exact ⟨{ c with unconfirmed := aremove uuid c.unconfirmed }, hDconns, hnone⟩
    next qh object hlkRF =>
      split
      next q' hrq =>
        refine ⟨{ c with unconfirmed := aremove uuid c.unconfirmed }, ?_, hnone⟩
        show ((s.dropEntry ci uuid).setQueue qh q').conns.get? ci = some _
        have hcc2 : ((s.dropEntry ci uuid).setQueue qh q').conns.get? ci
            = (s.dropEntry ci uuid).conns.get? ci := rfl
        rw [hcc2]
        exact hDconns
      next u d hrq =>
        exact ⟨{ c with unconfirmed := aremove uuid c.unconfirmed }, hDconns, hnone⟩

/-! ## Byte-level connection handlers (`src/server/src/connection.rs`) -/

theorem readLoop_error_encoding (ci : Nat) (fuel : Nat) (s : Broker)
    (buf : Bytes) (e : SError) (h : readLoop ci fuel s buf = .error e) :
    e = .encoding := by
  induction fuel generalizing s buf with
  | zero => exact absurd h (by simp [readLoop])
  | succ fuel ih =>
    unfold readLoop at h
    cases hdc : decodeClient buf with
    | none =>
      simp only [hdc] at h
      exact absurd h (by simp)
    | some pr =>
      obtain ⟨m, n⟩ := pr
      simp only [hdc] at h
      by_cases hb : MAX_SERVER_MESSAGE_LEN < (encodeServer (s.dispatch ci m).1).length
      · rw [if_pos hb] at h
        injection h with h'
        exact h'.symm
      · rw [if_neg hb] at h
        cases hrl : readLoop ci fuel (s.dispatch ci m).2 (buf.drop n) with
        | ok r =>
          simp only [hrl] at h
          obtain ⟨resps, rest, s'⟩ := r
          exact absurd h (by simp)
        | error e2 =>
          simp only [hrl] at h
          injection h with h'
          subst h'
          exact ih _ _ hrl

theorem readLoop_ok_rest (ci : Nat) (fuel : Nat) (s : Broker) (buf : Bytes)
    (resps : List ServerMessage) (rest : Bytes) (s' : Broker)
    (h : readLoop ci fuel s buf = .ok (resps, rest, s')) :
    rest = (decodeAllClient fuel buf).2
      ∧ resps.length = (decodeAllClient fuel buf).1.length := by
  induction fuel generalizing s buf resps rest s' with
  | zero =>
    simp only [readLoop, Except.ok.injEq, Prod.mk.injEq] at h
    obtain ⟨hr, hb, hs⟩ := h
    subst hr
    subst hb
    exact ⟨rfl, rfl⟩
  | succ fuel ih =>
    unfold readLoop at h
    cases hdc : decodeClient buf with
    | none =>
      simp only [hdc] at h
      simp only [Except.ok.injEq, Prod.mk.injEq] at h
      obtain ⟨hr, hb, hs⟩ := h
      subst hr
      subst hb
      unfold decodeAllClient
      rw [hdc]
      exact ⟨rfl, rfl⟩
    | some pr =>
      obtain ⟨m, n⟩ := pr
      simp only [hdc] at h
      by_cases hbound : MAX_SERVER_MESSAGE_LEN < (encodeServer (s.dispatch ci m).1).length
      · rw [if_pos hbound] at h
        exact absurd h (by simp)
      · rw [if_neg hbound] at h
        cases hrl : readLoop ci fuel (s.dispatch ci m).2 (buf.drop n) with
        | error e =>
          simp only [hrl] at h
          exact absurd h (by simp)
        | ok r =>
          obtain ⟨resps0, rest0, s0⟩ := r
          simp only [hrl] at h
          simp only [Except.ok.injEq, Prod.mk.injEq] at h
          obtain ⟨hr, hb, hs⟩ := h
          have hih := ih _ _ _ _ _ hrl
          unfold decodeAllClient
          rw [hdc]
          constructor
          · rw [← hb]
            exact hih.1
          · rw [← hr]
            simp only [List.length_cons]
            rw [hih.2]

theorem map_set_of_proj_eq {α β : Type} (f : α → β) (l : List α) (i : Nat)
    (a c : α) (h : l.get? i = some c) (hf : f a = f c) :
    (l.set i a).map f = l.map f := by
  induction l generalizing i with
  | nil => rfl
  | cons x xs ih =>
    cases i with
    | zero =>
      simp only [List.get?] at h
      obtain rfl : x = c := by injection h
      simp [List.set, hf]
    | succ i =>
      simp only [List.get?] at h
      simp [List.set, ih i h]

theorem updateConn_io (s : Broker) (ci : Nat) (g : Conn → Conn)
    (hg : ∀ c, ioProj (g c) = ioProj c) :
    (s.updateConn ci g).conns.map ioProj = s.conns.map ioProj := by
  unfold Broker.updateConn
  cases hci : s.conns.get? ci with
  | none => rfl
  | some c =>
    simp only [hci]
    exact map_set_of_proj_eq ioProj s.conns ci (g c) c hci (hg c)

theorem dispatch_io (s : Broker) (ci : Nat) (m : ClientMessage) :
    (s.dispatch ci m).2.conns.map ioProj = s.conns.map ioProj := by
  cases m with
  | createQueue name =>
    show (s.insertQueue name).conns.map ioProj = s.conns.map ioProj
    unfold Broker.insertQueue
    cases alookup name s.names <;> rfl
  | deleteQueue name =>
    have hsnd : (s.dispatch ci (.deleteQueue name)).2 = (s.removeQueue name).2 := by
      show (match s.removeQueue name with
        | (some _, s') => (ServerMessage.queueDeleted, s')
        | (none, s') => (ServerMessage.noSuchEntity, s')).2 = (s.removeQueue name).2
      rcases s.removeQueue name with ⟨_ | qh, s'⟩
      · rfl
      · rfl
    rw [hsnd]
    unfold Broker.removeQueue
    cases alookup name s.names <;> rfl
  | enqueue name object =>
    unfold Broker.dispatch
    cases halk : alookup name s.names with
    | none =>
      simp only [halk]
    | some qh =>
      simp only [halk]
      cases henq : (s.getQueue qh).enqueue s.nextId object with
      | ok q' =>
        simp only [henq]
        rfl
      | error p =>
        obtain ⟨u, d⟩ := p
        simp only [henq]
  | read name timeout =>
    show (s.read_ms ci name timeout).2.conns.map ioProj = s.conns.map ioProj
    unfold Broker.read_ms
    cases halk : alookup name s.names with
    | none => rfl
    | some qh =>
      simp only [halk]
      cases hdq : (s.getQueue qh).dequeue with
      | none => simp only [hdq]
      | some pr =>
        obtain ⟨⟨uuid, object⟩, q'⟩ := pr
        simp only [hdq]
        exact updateConn_io _ ci _ (fun c => rfl)
  | confirm uuid =>
    show (s.confirm ci uuid).2.conns.map ioProj = s.conns.map ioProj
    unfold Broker.confirm
    split
    · rfl
    next c hci =>
      split
      · rfl
      next hlk => exact updateConn_io s ci _ (fun c' => rfl)
      next hlk => exact updateConn_io s ci _ (fun c' => rfl)
      next qh object hlk =>
        split
        next q' hrq =>
          show ((s.dropEntry ci uuid).setQueue qh q').conns.map ioProj
            = s.conns.map ioProj
          exact updateConn_io s ci _ (fun c' => rfl)
        next u d hrq =>
          exact updateConn_io s ci _ (fun c' => rfl)

theorem readLoop_io (ci : Nat) (fuel : Nat) (s : Broker) (buf : Bytes)
    (resps : List ServerMessage) (rest : Bytes) (s' : Broker)
    (h : readLoop ci fuel s buf = .ok (resps, rest, s')) :
    s'.conns.map ioProj = s.conns.map ioProj := by
  induction fuel generalizing s buf resps rest s' with
  | zero =>
    simp only [readLoop, Except.ok.injEq, Prod.mk.injEq] at h
    rw [← h.2.2]
  | succ fuel ih =>
    unfold readLoop at h
    cases hdc : decodeClient buf with
    | none =>
      simp only [hdc] at h
      simp only [Except.ok.injEq, Prod.mk.injEq] at h
      rw [← h.2.2]
    | some pr =>
      obtain ⟨m, n⟩ := pr
      simp only [hdc] at h
      by_cases hbound : MAX_SERVER_MESSAGE_LEN < (encodeServer (s.dispatch ci m).1).length
      · rw [if_pos hbound] at h
        exact absurd h (by simp)
      · rw [if_neg hbound] at h
        cases hrl : readLoop ci fuel (s.dispatch ci m).2 (buf.drop n) with
        | error e =>
          simp only [hrl] at h
          exact absurd h (by simp)
        | ok r =>
          obtain ⟨resps0, rest0, s0⟩ := r
          simp only [hrl] at h
          simp only [Except.ok.injEq, Prod.mk.injEq] at h
          rw [← h.2.2]
          exact (ih _ _ _ _ _ hrl).trans (dispatch_io s ci m)

theorem conns_io_get (l l' : List Conn)
    (hmap : l'.map ioProj = l.map ioProj) (i : Nat) (c : Conn)
    (h : l.get? i = some c) :
    ∃ c', l'.get? i = some c'
      ∧ c'.incoming = c.incoming ∧ c'.outgoing = c.outgoing := by
  have h1 : (l'.map ioProj).get? i = (l.map ioProj).get? i := by rw [hmap]
  rw [List.get?_map, List.get?_map, h] at h1
  cases hl' : l'.get? i with
  | none =>
    rw [hl'] at h1
    exact absurd h1 (by simp)
  | some c' =>
    rw [hl'] at h1
    simp only [Option.map_some', Option.some.injEq] at h1
    have h2 : c'.incoming = c.incoming ∧ c'.outgoing = c.outgoing := by
      have := h1
      simp only [ioProj, Prod.mk.injEq] at this
      exact this
    exact ⟨c', rfl, h2.1, h2.2⟩

theorem writable_fifo_aux (accept : Nat) (outg : List Bytes) :
    (writable accept outg).2 ++ (writable accept outg).1.join = outg.join := by
  induction outg generalizing accept with
  | nil => rfl
  | cons top rest ih =>
    unfold writable
    by_cases h0 : top.length = 0 ∨ accept = 0
    · rw [if_pos h0]
      rfl
    · rw [if_neg h0]
      by_cases hle : top.length ≤ accept
      · rw [if_pos hle]
        simp only [List.join_cons]
        rw [List.append_assoc, ih (accept - top.length)]
      · rw [if_neg hle]
        simp only [List.join_cons]
        rw [← List.append_assoc, List.take_append_drop]

theorem firstFree_eq_none {α : Type} (l : List (Option α))
    (h : ∀ o ∈ l, o.isSome = true) : firstFree l = none := by
  induction l with
  | nil => rfl
  | cons o rest ih =>
    cases o with
    | none => exact absurd (h none (by simp)) (by simp)
    | some a =>
      simp only [firstFree]
      rw [ih fun o ho => h o (by simp [ho])]
      rfl

/-! ## Concrete example states -/

/-- C1, counterexample: the claim "a message identifier delivered by Read is
never simultaneously present in a queue and in any connection's unconfirmed
map, and the unconfirmed entry is destroyed when the client sends Confirm or
when the redelivery timer fires, whichever happens first" is false on the
code: in the reachable state `exC1` the timer has fired and requeued message
id 0, yet the unconfirmed entry for id 0 is still in connection 0's map
(`Connection::confirm` is the only place that removes entries;
the timeout coordinator of `read_ms` never touches the map). -/
theorem c1_counterexample :
    Broker.Reachable exC1
      ∧ exC1.qCount 0 = 1
      ∧ (∃ c, exC1.conns.get? 0 = some c
          ∧ (alookup 0 c.unconfirmed).isSome = true) := by
  refine ⟨⟨none, [.newConn, .request 0 (.createQueue [102]),
      .request 0 (.enqueue [102] [7]), .request 0 (.read [102] 10),
      .timer 0 0], rfl⟩, by decide,
    ⟨⟨[], [], [(0, Entry.requeuedOK)]⟩, by decide, by decide⟩⟩

/-- C1, amended: in every reachable broker state an identifier is never
simultaneously enqueued and held by a LIVE (in-flight or requeue-failed)
unconfirmed entry; the timer transition never destroys an unconfirmed entry
(it only resolves its cancellation state, so a timer-requeued id keeps its
spent entry); the entry is destroyed exactly when the client sends Confirm. -/
theorem c1_unconfirmed_lifecycle_amended (s : Broker) (h : s.Reachable) :
    (∀ id, s.qCount id + s.liveCount id ≤ 1)
      ∧ (∀ ci uuid id, (s.fireTimer ci uuid).keyCount id = s.keyCount id)
      ∧ (∀ ci uuid c e, s.conns.get? ci = some c →
          alookup uuid c.unconfirmed = some e →
          ∃ c', (s.confirm ci uuid).2.conns.get? ci = some c'
            ∧ alookup uuid c'.unconfirmed = none) := by
  have hInv := inv_reachable s h
  exact ⟨hInv.1,
    fun ci uuid id => keyCount_fireTimer s ci uuid id hInv,
    fun ci uuid c e hci hlk => confirm_removes_entry s ci uuid c e hInv hci hlk⟩

theorem c1_unconfirmed_lifecycle_amended_witness :
    (exC1.qCount 0 + exC1.liveCount 0 ≤ 1)
      ∧ (exC1.fireTimer 0 0).keyCount 0 = exC1.keyCount 0
      ∧ (∃ c', (exC1.confirm 0 0).2.conns.get? 0 = some c'
          ∧ alookup 0 c'.unconfirmed = none) := by
  have h := c1_unconfirmed_lifecycle_amended exC1
    ⟨none, [.newConn, .request 0 (.createQueue [102]),
      .request 0 (.enqueue [102] [7]), .request 0 (.read [102] 10),
      .timer 0 0], rfl⟩
  exact ⟨h.1 0, h.2.1 0 0 0,
    h.2.2 0 0 ⟨[], [], [(0, Entry.requeuedOK)]⟩ Entry.requeuedOK
      (by decide) (by decide)⟩

/-- C2 (evidence of the code bug): `Connection::read_ms` arms the reactor
timer with the raw `timeout_ms` value (connection.rs line 154), also for
`timeout_ms = 0`, although a timeout of 0 is documented as "no timeout"
(`src/common/src/lib.rs` line 37).  After `Read("f", 0)` delivers id 0, a
timer `(conn 0, id 0, 0 ms)` is armed — not absent and not effectively
unbounded — and when it fires the message is requeued, so a later Confirm
answers `Requeued`, not `Confirmed`. -/
theorem c2_zero_timeout_arms_immediate_timer :
    (exC2.dispatch 0 (.read [102] 0)).2.timers = [(0, 0, 0)]
      ∧ (((exC2.dispatch 0 (.read [102] 0)).2.fireTimer 0 0).dispatch 0
          (.confirm 0)).1 = .requeued :=
  ⟨by decide, by decide⟩

/-- C3: `Connection::confirm` (connection.rs lines 186-212): an absent id
answers `NoSuchEntity`; an unresolved cancellation future fires the confirm
signal and answers `Confirmed`; a completed or aborted cancellation answers
`Requeued` (the aborted case is the requeued-OK case); a failed cancellation
carrying `(queue, id, data)` retries `queue.requeue` now and answers
`Requeued` on success or `Full(id, data)` on capacity rejection. -/
theorem c3_confirm_dispatch :
    confirmStep none = ⟨.noSuchEntity, false, none⟩
      ∧ confirmStep (some .pending) = ⟨.confirmed, true, none⟩
      ∧ confirmStep (some .completed) = ⟨.requeued, false, none⟩
      ∧ confirmStep (some .aborted) = ⟨.requeued, false, none⟩
      ∧ (∀ (queue : GQueue) (id : Nat) (data : Bytes),
          confirmStep (some (.failed queue id data))
            = match queue.requeue id data with
              | .ok q' => ⟨.requeued, false, some q'⟩
              | .error (u, d) => ⟨.full u d, false, none⟩) :=
  ⟨rfl, rfl, rfl, rfl, fun _ _ _ => rfl⟩

/-- C4: `RcQueue::requeue` (rcqueue.rs lines 42-44) inserts at the front, so
the next dequeue returns the requeued message first; `ConcurrentQueue::requeue`
(concurrent.rs lines 59-61) is extensionally equal to `enqueue` (tail
insert); and in the scenario Enqueue(a), Enqueue(b), Read → a, timeout
without Confirm, the single-thread backend's next Read yields a (id 0,
payload `[10]`) before b. -/
theorem c4_requeue_semantics :
    (∀ (q : RcQueue) (id : Nat) (data : Bytes),
        RcQueue.requeue q id data = .ok ((id, data) :: q))
      ∧ (∀ (q : RcQueue) (id : Nat) (data : Bytes),
          RcQueue.dequeue ((id, data) :: q) = some ((id, data), q))
      ∧ (∀ (q : ConcurrentQueue) (id : Nat) (data : Bytes),
          q.requeue id data = q.enqueue id data)
      ∧ (exC4.dispatch 0 (.read [102] 5)).1 = .read 0 [10] :=
  ⟨fun _ _ _ => rfl, fun _ _ _ => rfl, fun _ _ _ => rfl, by decide⟩

/-- C5 (evidence of the code bug): `ResponseIter::next` (pipeline.rs lines
49-58) never decrements `expecting` (only `Pipeline::receive` does, lines
27-35).  With exactly one outstanding request and two decodable responses
on the stream, the iterator yields BOTH responses instead of yielding `none`
after the first, and `expecting` still reads 1 afterwards — so the iterator
does not terminate after one response per outstanding request. -/
theorem c5_response_iter_ignores_expecting :
    pipeC5.expecting = 1
      ∧ (pipeC5.next).1 = some .queueCreated
      ∧ ((pipeC5.next).2.next).1 = some .queueDeleted
      ∧ ((pipeC5.next).2.next).2.expecting = 1 :=
  ⟨rfl, by decide, by decide, by decide⟩

/-- C6: `Connection::readable` (connection.rs lines 69-125) fails with
`OverLongMessage` iff the decode-dispatch loop runs to completion (no
response-encoding failure) and the leftover incoming buffer — what remains
after decoding all complete requests — still exceeds the 2048-byte maximum
request size; and when the leftover is within the bound (and the loop
succeeded) the handler returns `Ok`, so the connection waits for more
bytes. -/
theorem c6_overlong_iff (s : Broker) (ci : Nat) (input : Bytes) (c : Conn)
    (hci : s.conns.get? ci = some c) :
    (s.readable ci input = .error .overLongMessage ↔
      (∃ r, readLoop ci (c.incoming ++ input).length s (c.incoming ++ input)
          = .ok r)
        ∧ MAX_CLIENT_MESSAGE_LEN
            < (decodeAllClient (c.incoming ++ input).length
                (c.incoming ++ input)).2.length)
    ∧ ((∃ r, readLoop ci (c.incoming ++ input).length s (c.incoming ++ input)
          = .ok r) →
        (decodeAllClient (c.incoming ++ input).length
            (c.incoming ++ input)).2.length ≤ MAX_CLIENT_MESSAGE_LEN →
        ∃ s', s.readable ci input = .ok s') := by
  cases hrl : readLoop ci (c.incoming ++ input).length s (c.incoming ++ input) with
  | error e =>
    have he := readLoop_error_encoding _ _ _ _ _ hrl
    subst he
    have hre : s.readable ci input = .error .encoding := by
      unfold Broker.readable
      simp only [hci, hrl]
    constructor
    · constructor
      · intro habs
        rw [hre] at habs
        exact absurd habs (by simp)
      · rintro ⟨⟨r, hr⟩, -⟩
        exact absurd hr (by simp)
    · rintro ⟨r, hr⟩ -
      exact absurd hr (by simp)
  | ok r =>
    obtain ⟨resps, rest, s''⟩ := r
    have hrest := (readLoop_ok_rest _ _ _ _ _ _ _ hrl).1
    by_cases hlen : MAX_CLIENT_MESSAGE_LEN < rest.length
    · have hre : s.readable ci input = .error .overLongMessage := by
        unfold Broker.readable
        simp only [hci, hrl]
        rw [if_pos hlen]
      constructor
      · constructor
        · rintro -
          exact ⟨⟨_, rfl⟩, by rw [← hrest]; exact hlen⟩
        · rintro -
          exact hre
      · rintro - hle
        rw [← hrest] at hle
        omega
    · have hre : s.readable ci input = .ok (s''.updateConn ci fun c' =>
          { c' with incoming := rest, outgoing := c'.outgoing ++ resps.map encodeServer }) := by
        unfold Broker.readable
        simp only [hci, hrl]
        rw [if_neg hlen]
      constructor
      · constructor
        · intro habs
          rw [hre] at habs
          exact absurd habs (by simp)
        · rintro ⟨-, hbig⟩
          rw [← hrest] at hbig
          omega
      · rintro - -
        exact ⟨_, hre⟩

theorem c6_overlong_iff_witness :
    ∃ s', brokerC6.readable 0 [255, 255, 255, 255] = .ok s' :=
  (c6_overlong_iff brokerC6 0 [255, 255, 255, 255] Conn.new rfl).2
    ⟨([], Conn.new.incoming ++ [255, 255, 255, 255], brokerC6), rfl⟩ (by decide)

/-- C7: a bounded queue at capacity rejects an enqueue, handing the
`(identifier, payload)` pair back (`ConcurrentQueue::enqueue`,
concurrent.rs lines 55-57), and the dispatched `Enqueue` request answers
`Full(id, p)` with the submitted payload, the broker state unchanged except
for the consumed fresh identifier. -/
theorem c7_capacity_rejection (q : ConcurrentQueue) (id : Nat) (data : Bytes)
    (hfull : q.channel.length = q.capacity)
    (s : Broker) (ci : Nat) (name : Bytes) (p : Bytes) (qh : Nat)
    (halk : alookup name s.names = some qh)
    (hcap : (s.getQueue qh).cap = some ((s.getQueue qh).items.length)) :
    q.enqueue id data = .error (id, data)
      ∧ s.dispatch ci (.enqueue name p)
          = (.full s.nextId p, { s with nextId := s.nextId + 1 }) := by
  constructor
  · unfold ConcurrentQueue.enqueue
    rw [hfull]
    simp
  · have henq : (s.getQueue qh).enqueue s.nextId p = .error (s.nextId, p) := by
      unfold GQueue.enqueue
      rw [hcap]
      simp
    unfold Broker.dispatch
    simp only [halk, henq]

theorem c7_capacity_rejection_witness :
    ConcurrentQueue.enqueue ⟨0, []⟩ 5 [8] = .error (5, [8])
      ∧ exC7.dispatch 0 (.enqueue [113] [9])
          = (.full exC7.nextId [9], { exC7 with nextId := exC7.nextId + 1 }) :=
  c7_capacity_rejection ⟨0, []⟩ 5 [8] rfl exC7 0 [113] [9] 0 (by decide) (by decide)

/-- C8: within one connection, a successful `readable` produces exactly one
response per decoded request and appends their encodings to the outgoing
queue in request order; and `writable` (connection.rs lines 129-140) drains
the outgoing queue head first, so the bytes on the wire are always a prefix
of the outgoing queue flattened in order. -/
theorem c8_one_response_per_request_fifo (s : Broker) (ci : Nat)
    (input : Bytes) (c : Conn) (s' : Broker)
    (hci : s.conns.get? ci = some c)
    (h : s.readable ci input = .ok s') :
    (∃ resps rest s'',
      readLoop ci (c.incoming ++ input).length s (c.incoming ++ input)
          = .ok (resps, rest, s'')
        ∧ resps.length
            = (decodeAllClient (c.incoming ++ input).length
                (c.incoming ++ input)).1.length
        ∧ ∃ c', s'.conns.get? ci = some c'
            ∧ c'.outgoing = c.outgoing ++ resps.map encodeServer
            ∧ c'.incoming = rest)
    ∧ (∀ accept outg, (writable accept outg).2 ++ (writable accept outg).1.join
        = outg.join) := by
  refine ⟨?_, fun accept outg => writable_fifo_aux accept outg⟩
  cases hrl : readLoop ci (c.incoming ++ input).length s (c.incoming ++ input) with
  | error e =>
    have hre : s.readable ci input = .error e := by
      unfold Broker.readable
      simp only [hci, hrl]
    rw [hre] at h
    exact absurd h (by simp)
  | ok r =>
    obtain ⟨resps, rest, s''⟩ := r
    by_cases hlen : MAX_CLIENT_MESSAGE_LEN < rest.length
    · have hre : s.readable ci input = .error .overLongMessage := by
        unfold Broker.readable
        simp only [hci, hrl]
        rw [if_pos hlen]
      rw [hre] at h
      exact absurd h (by simp)
    · have hre : s.readable ci input = .ok (s''.updateConn ci fun c' =>
          { c' with incoming := rest, outgoing := c'.outgoing ++ resps.map encodeServer }) := by
        unfold Broker.readable
        simp only [hci, hrl]
        rw [if_neg hlen]
      rw [hre] at h
      injection h with h'
      refine ⟨resps, rest, s'', rfl, (readLoop_ok_rest _ _ _ _ _ _ _ hrl).2, ?_⟩
      have hio := readLoop_io _ _ _ _ _ _ _ hrl
      obtain ⟨c'', hc'', hinc, hout⟩ := conns_io_get s.conns s''.conns hio ci c hci
      obtain ⟨hlt, -⟩ := List.get?_eq_some.mp hc''
      refine ⟨{ c'' with incoming := rest, outgoing := c''.outgoing ++ resps.map encodeServer }, ?_, ?_, rfl⟩
      · rw [← h']
        unfold Broker.updateConn
        simp only [hc'']
        exact get?_set_self _ ci _ hlt
      · show c''.outgoing ++ resps.map encodeServer
          = c.outgoing ++ resps.map encodeServer
        rw [hout]

theorem c8_one_response_per_request_fifo_witness :
    (∃ resps rest s'',
      readLoop 0 (Conn.new.incoming ++ inputC8).length brokerC8
          (Conn.new.incoming ++ inputC8) = .ok (resps, rest, s'')
        ∧ resps.length
            = (decodeAllClient (Conn.new.incoming ++ inputC8).length
                (Conn.new.incoming ++ inputC8)).1.length
        ∧ ∃ c', brokerC8'.conns.get? 0 = some c'
            ∧ c'.outgoing = Conn.new.outgoing ++ resps.map encodeServer
            ∧ c'.incoming = rest)
    ∧ (∀ accept outg, (writable accept outg).2 ++ (writable accept outg).1.join
        = outg.join) :=
  c8_one_response_per_request_fifo brokerC8 0 inputC8 Conn.new brokerC8'
    rfl (by rfl)

/-- C9: for every request and response variant whose fixed-width numeric
fields fit their wire width, decoding the encoding (with any trailing
bytes) yields the message back together with the number of bytes consumed. -/
theorem c9_codec_roundtrip :
    (∀ (m : ClientMessage) (extra : Bytes), WFClient m →
      decodeClient (encodeClient m ++ extra)
        = some (m, (encodeClient m).length))
    ∧ (∀ (m : ServerMessage) (extra : Bytes), WFServer m →
      decodeServer (encodeServer m ++ extra)
        = some (m, (encodeServer m).length)) :=
  ⟨decodeClient_encodeClient, decodeServer_encodeServer⟩

theorem c9_codec_roundtrip_witness :
    decodeClient (encodeClient (.enqueue [102] [1, 2]) ++ [])
        = some (.enqueue [102] [1, 2], (encodeClient (.enqueue [102] [1, 2])).length)
      ∧ decodeServer (encodeServer (.read 7 [9]) ++ [])
        = some (.read 7 [9], (encodeServer (.read 7 [9])).length) :=
  ⟨c9_codec_roundtrip.1 (.enqueue [102] [1, 2]) [] (by constructor <;> decide),
   c9_codec_roundtrip.2 (.read 7 [9]) [] (by constructor <;> decide)⟩

/-- C10: when every slot of the reactor's registration slab is taken,
registering one more registration — a newly accepted client connection
(`Handler::accept`, rt.rs lines 74-76) or a new acceptor
(`Handler::notify`, rt.rs lines 196-197) — panics the reactor thread with
"No space for a new registration in the handler slab."
(`Handler::register`, rt.rs lines 104-107) instead of rejecting the
registration and keeping the reactor running. -/
theorem c10_full_slab_panics (slab : Slab Registration)
    (hfull : ∀ o ∈ slab.slots, o.isSome = true) :
    register slab .connection
        = .error "No space for a new registration in the handler slab."
      ∧ acceptRegister slab
        = .error "No space for a new registration in the handler slab."
      ∧ notifyAcceptorRegister slab
        = .error "No space for a new registration in the handler slab." := by
  have hff : firstFree slab.slots = none := firstFree_eq_none slab.slots hfull
  have hreg : ∀ r : Registration, register slab r
      = .error "No space for a new registration in the handler slab." := by
    intro r
    unfold register Slab.insert
    rw [hff]
  exact ⟨hreg _, hreg _, hreg _⟩

theorem c10_full_slab_panics_witness :
    register ⟨[some Registration.acceptor]⟩ Registration.connection
        = .error "No space for a new registration in the handler slab."
      ∧ acceptRegister ⟨[some Registration.acceptor]⟩
        = .error "No space for a new registration in the handler slab."
      ∧ notifyAcceptorRegister ⟨[some Registration.acceptor]⟩
        = .error "No space for a new registration in the handler slab." :=
  c10_full_slab_panics ⟨[some Registration.acceptor]⟩ (by decide)

end DbQueue
